import Mathlib

/-!
# The broker of `broker_server.cpp`

A shallow embedding of the broker's data plane: `Message`, `Partition`
(the blocking FIFO queue), `Broker` (the topic registry with its
round-robin cursors) and one iteration of `handleClient` (the text
protocol), followed by theorems about them.

Conventions of the embedding.

* A `std::string` is a `List Char`; every `Char` stands for one byte.
* A `std::map<std::string, V>` is a list of key/value pairs kept in key
  order; `operator[]` inserts a value-initialised entry for a missing key.
* `int` is `Int`; the places where the 32-bit range matters
  (`operator>>(int&)`, the conversion of `size()` to `int`, `index + 1`)
  are written out.
* A call has an `Outcome`: it returns, it blocks (`cv.wait` on an empty
  queue), or it has undefined behaviour (`operator[]` of a vector out of
  range, signed overflow, `%` by zero).  The state that comes with
  `undefined` is the state at that point of the call, and a sequence of
  calls ends there.
* An `int` local that `handleClient` leaves uninitialised (`msgId`,
  `partition` when the extraction does not store) has an indeterminate
  value: the parameter `uninit`, over which the theorems quantify.
* The registry lock makes every member function of `Broker` atomic, so
  concurrent callers are a sequence of calls in the order of the lock.
* A consumer that finds its queue empty waits in `cv.wait`; `Server` keeps
  the waiting consumers next to the broker, and a consumer that wakes and
  pops a message is an event of its own (`Event.wake`).
-/

set_option autoImplicit false

/-! ## Strings and characters -/

/-- A `std::string`: a sequence of bytes. -/
abbrev StdString := List Char

/-- The macro `BUFFER_SIZE`. -/
def BUFFER_SIZE : Nat := 1024

/-- The largest `int`. -/
def INT_MAX : Int := 2147483647

/-- The smallest `int`. -/
def INT_MIN : Int := -2147483648

/-- The conversion of an integer value to `int` (two's complement, 32 bits). -/
def toInt32 (n : Int) : Int := (n + 2147483648) % 4294967296 - 2147483648

/-- `std::isspace` in the "C" locale: space, `\t`, `\n`, `\v`, `\f`, `\r`. -/
def isspace (c : Char) : Bool :=
  c == ' ' || c == '\t' || c == '\n' || c == Char.ofNat 11 || c == Char.ofNat 12 || c == '\r'

/-- A decimal digit. -/
def isdigit (c : Char) : Bool := decide ('0' ≤ c) && decide (c ≤ '9')

/-- The terminating NUL byte of a C string. -/
def NUL : Char := Char.ofNat 0

/-- The value of a run of decimal digits, most significant first. -/
def digitsValue (ds : StdString) : Nat :=
  ds.foldl (fun acc c => acc * 10 + (c.toNat - 48)) 0

/-- `std::to_string(int)`: the decimal representation, `-` first when negative. -/
def to_string (n : Int) : StdString :=
  if n < 0 then '-' :: Nat.toDigits 10 n.natAbs else Nat.toDigits 10 n.toNat

/-! ## `std::map` -/

/-- A `std::map<std::string, V>`: key/value pairs in key order. -/
abbrev StdMap (V : Type) := List (StdString × V)

/-- `m.find(key)`: the value stored under `key`, `none` for `m.end()`. -/
def StdMap.find {V : Type} : StdMap V → StdString → Option V
  | [], _ => none
  | (k, v) :: rest, key => if k = key then some v else StdMap.find rest key

/-- Store `val` under a key that is already present. -/
def StdMap.replace {V : Type} : StdMap V → StdString → V → StdMap V
  | [], _, _ => []
  | (k, v) :: rest, key, val =>
    if k = key then (k, val) :: rest else (k, v) :: StdMap.replace rest key val

/-- Insert a new key at its place in the key order. -/
def StdMap.insert {V : Type} : StdMap V → StdString → V → StdMap V
  | [], key, val => [(key, val)]
  | (k, v) :: rest, key, val =>
    if key < k then (key, val) :: (k, v) :: rest else (k, v) :: StdMap.insert rest key val

/-- The assignment `m[key] = val`. -/
def StdMap.set {V : Type} (m : StdMap V) (key : StdString) (val : V) : StdMap V :=
  match StdMap.find m key with
  | some _ => StdMap.replace m key val
  | none => StdMap.insert m key val

/-- The read `m[key]`: a missing key is first inserted with the
value-initialised `dflt`; the map after the read and the value read. -/
def StdMap.index {V : Type} (m : StdMap V) (key : StdString) (dflt : V) : StdMap V × V :=
  match StdMap.find m key with
  | some v => (m, v)
  | none => (StdMap.insert m key dflt, dflt)

/-- The keys of a map, in order. -/
def StdMap.keys {V : Type} (m : StdMap V) : List StdString := m.map Prod.fst

/-! ## Message and Partition -/

/-- The struct `Message`. -/
structure Message where
  id : Int
  content : StdString
  deriving DecidableEq, Repr

/-- The class `Partition`: the queue `messages`, head first. -/
structure Partition where
  messages : List Message
  deriving DecidableEq, Repr

/-- `Partition::addMessage`: push at the back. -/
def Partition.addMessage (p : Partition) (msg : Message) : Partition :=
  ⟨p.messages ++ [msg]⟩

/-- `Partition::getMessage`: the front message and the queue without it;
`none` when the queue is empty and the call waits on the condition variable. -/
def Partition.getMessage (p : Partition) : Option (Message × Partition) :=
  match p.messages with
  | [] => none
  | msg :: rest => some (msg, ⟨rest⟩)

/-! ## Broker -/

/-- How a call ends. -/
inductive Outcome (α : Type) where
  | returned (a : α)
  | blocked
  | undefined
  deriving DecidableEq, Repr

/-- The class `Broker`: `topics` and `roundRobin`. -/
structure Broker where
  topics : StdMap (List Partition)
  roundRobin : StdMap Int
  deriving DecidableEq, Repr

/-- The constructor `Broker::Broker()` (named `new`: `Broker.Broker` would clash
with the structure inside its own namespace). -/
def Broker.new : Broker :=
  let topics : StdMap (List Partition) := []
  let roundRobin : StdMap Int := []
  let topics := StdMap.set topics "topic1".toList (List.replicate 3 ⟨[]⟩)
  let topics := StdMap.set topics "topic2".toList (List.replicate 2 ⟨[]⟩)
  let roundRobin := StdMap.set roundRobin "topic1".toList 0
  let roundRobin := StdMap.set roundRobin "topic2".toList 0
  ⟨topics, roundRobin⟩

/-- `Broker::topicExists`. -/
def Broker.topicExists (b : Broker) (topic : StdString) : Bool :=
  (StdMap.find b.topics topic).isSome

/-- `Broker::getPartitionCount`: `size()` converted to `int`, 0 for an unknown topic. -/
def Broker.getPartitionCount (b : Broker) (topic : StdString) : Int :=
  match StdMap.find b.topics topic with
  | some parts => toInt32 parts.length
  | none => 0

/-- `Broker::produceMessage`. -/
def Broker.produceMessage (b : Broker) (topic : StdString) (msg : Message) :
    Broker × Outcome Int :=
  match StdMap.find b.topics topic with
  | none => (b, .returned (-1))
  | some parts =>
    let (roundRobin, partitionIndex) := StdMap.index b.roundRobin topic 0
    if 0 ≤ partitionIndex ∧ partitionIndex < parts.length then
      match parts[partitionIndex.toNat]? with
      | none => (⟨b.topics, roundRobin⟩, .undefined)
      | some part =>
        let topics :=
          StdMap.set b.topics topic (parts.set partitionIndex.toNat (part.addMessage msg))
        if partitionIndex + 1 ≤ INT_MAX then
          (⟨topics, StdMap.set roundRobin topic (toInt32 ((partitionIndex + 1) % parts.length))⟩,
            .returned partitionIndex)
        else (⟨topics, roundRobin⟩, .undefined)
    else (⟨b.topics, roundRobin⟩, .undefined)

/-- `Broker::consumeMessage`.  On an empty queue the result is `.blocked`: the
caller stays in `cv.wait` inside `Partition::getMessage` and the registry is
as it was.  The caller that waits, and the message it pops when it wakes, are
followed by `Server.step`. -/
def Broker.consumeMessage (b : Broker) (topic : StdString) (partition : Int) :
    Broker × Outcome Message :=
  let (topics, parts) := StdMap.index b.topics topic []
  if 0 ≤ partition ∧ partition < parts.length then
    match parts[partition.toNat]? with
    | none => (⟨topics, b.roundRobin⟩, .undefined)
    | some part =>
      match part.getMessage with
      | none => (⟨topics, b.roundRobin⟩, .blocked)
      | some (msg, part) =>
        (⟨StdMap.set topics topic (parts.set partition.toNat part), b.roundRobin⟩, .returned msg)
  else (⟨topics, b.roundRobin⟩, .undefined)

/-! ## `std::istringstream` -/

/-- A `std::istringstream`: the characters not yet read, `eofbit` and `failbit`. -/
structure IStringStream where
  buf : StdString
  eofbit : Bool
  failbit : Bool
  deriving DecidableEq, Repr

/-- `std::istringstream iss(request)`. -/
def IStringStream.ofString (request : StdString) : IStringStream := ⟨request, false, false⟩

/-- `good()`: neither `eofbit` nor `failbit` is set. -/
def IStringStream.good (s : IStringStream) : Bool := !s.eofbit && !s.failbit

/-- `iss >> str` for a `std::string`.  A stream that is not good, or that
ends after the leading whitespace, gets `failbit` and `str` keeps its value;
otherwise `str` becomes the characters up to the next whitespace, and
`eofbit` is set when the token ends the input. -/
def IStringStream.extractString (s : IStringStream) (str : StdString) :
    IStringStream × StdString :=
  if s.good then
    match s.buf.dropWhile isspace with
    | [] => (⟨[], true, true⟩, str)
    | c :: cs =>
      let rest := (c :: cs).dropWhile (fun x => !isspace x)
      (⟨rest, rest.isEmpty, false⟩, (c :: cs).takeWhile (fun x => !isspace x))
  else (⟨s.buf, s.eofbit, true⟩, str)

/-- `iss >> n` for an `int`.  A stream that is not good, or that ends after
the leading whitespace, gets `failbit` and `n` keeps its value.  Otherwise an
optional sign and the decimal digits after it are read: without a digit the
result is 0 with `failbit`, a value outside the `int` range gives `INT_MAX`
or `INT_MIN` with `failbit`, and `eofbit` is set when the digits end the input. -/
def IStringStream.extractInt (s : IStringStream) (n : Int) : IStringStream × Int :=
  if s.good then
    match s.buf.dropWhile isspace with
    | [] => (⟨[], true, true⟩, n)
    | c :: cs =>
      let negative := c == '-'
      let body := if c == '-' || c == '+' then cs else c :: cs
      let digits := body.takeWhile isdigit
      let rest := body.dropWhile isdigit
      if digits.isEmpty then (⟨rest, rest.isEmpty, true⟩, 0)
      else
        let value : Int := if negative then -(digitsValue digits : Int) else digitsValue digits
        if value > INT_MAX then (⟨rest, rest.isEmpty, true⟩, INT_MAX)
        else if value < INT_MIN then (⟨rest, rest.isEmpty, true⟩, INT_MIN)
        else (⟨rest, rest.isEmpty, false⟩, value)
  else (⟨s.buf, s.eofbit, true⟩, n)

/-- `std::getline(iss, str)`.  A stream that is not good gets `failbit` and
`str` keeps its value.  Otherwise `str` becomes the characters up to the next
`\n`, which is read and dropped; at the end of the input `eofbit` is set, and
`failbit` too when nothing at all was read. -/
def IStringStream.getline (s : IStringStream) (str : StdString) :
    IStringStream × StdString :=
  if s.good then
    let line := s.buf.takeWhile (fun x => x != '\n')
    match s.buf.dropWhile (fun x => x != '\n') with
    | [] => (⟨[], true, line.isEmpty⟩, line)
    | _ :: rest => (⟨rest, false, false⟩, line)
  else (⟨s.buf, s.eofbit, true⟩, str)

/-! ## The connection handler -/

/-- What one iteration of the loop of `handleClient` does to the connection:
it writes a response, it stays inside `Broker::consumeMessage` waiting for a
message, it runs into undefined behaviour, or it closes the socket. -/
inductive Reply where
  | wrote (text : StdString)
  | blocked
  | undefined
  | closed
  deriving DecidableEq, Repr

/-- The member functions of `Broker` called by the handler, with their arguments. -/
inductive Call where
  | topicExists (topic : StdString)
  | getPartitionCount (topic : StdString)
  | produceMessage (topic : StdString) (msg : Message)
  | consumeMessage (topic : StdString) (partition : Int)
  deriving DecidableEq, Repr

/-- The result of one iteration: the broker after it, what happened on the
connection, and the calls made on the broker, in order. -/
structure Step where
  broker : Broker
  reply : Reply
  calls : List Call
  deriving DecidableEq, Repr

/-- `std::string request(buffer)` after `read(clientSocket, buffer, sizeof(buffer) - 1)`
into the zeroed buffer: at most `BUFFER_SIZE - 1` of the incoming bytes, up to
the first NUL. -/
def requestOf (incoming : StdString) : StdString :=
  (incoming.take (BUFFER_SIZE - 1)).takeWhile (fun x => x != NUL)

/-- The arguments of `PRODUCE` as `handleClient` reads them: `topic`, `msgId`
and the rest of the line without one leading space.  `uninit` is the
indeterminate value of the uninitialised `int msgId`. -/
def parseProduce (iss : IStringStream) (uninit : Int) : StdString × Message :=
  let (iss, topic) := iss.extractString []
  let (iss, msgId) := iss.extractInt uninit
  let (_, msgContent) := iss.getline []
  let msgContent :=
    match msgContent with
    | c :: rest => if c == ' ' then rest else msgContent
    | [] => msgContent
  (topic, ⟨msgId, msgContent⟩)

/-- The arguments of `CONSUME` as `handleClient` reads them.  `uninit` is the
indeterminate value of the uninitialised `int partition`. -/
def parseConsume (iss : IStringStream) (uninit : Int) : StdString × Int :=
  let (iss, topic) := iss.extractString []
  let (_, partition) := iss.extractInt uninit
  (topic, partition)

/-- One iteration of the loop of `handleClient`: `incoming` is what the socket
holds for the `read`, `uninit` the indeterminate value of the uninitialised
locals. -/
def handleRequest (broker : Broker) (uninit : Int) (incoming : StdString) : Step :=
  if (incoming.take (BUFFER_SIZE - 1)).length ≤ 0 then ⟨broker, .closed, []⟩
  else
    let (iss, command) := (IStringStream.ofString (requestOf incoming)).extractString []
    if command = "PRODUCE".toList then
      let (topic, msg) := parseProduce iss uninit
      match broker.produceMessage topic msg with
      | (b, .returned partitionIndex) =>
        if partitionIndex < 0 then
          ⟨b, .wrote "ERROR: Topic not found\n".toList, [.produceMessage topic msg]⟩
        else
          ⟨b, .wrote ("Message produced to partition ".toList ++ to_string partitionIndex
            ++ "\n".toList), [.produceMessage topic msg]⟩
      | (b, .blocked) => ⟨b, .blocked, [.produceMessage topic msg]⟩
      | (b, .undefined) => ⟨b, .undefined, [.produceMessage topic msg]⟩
    else if command = "CONSUME".toList then
      let (topic, partition) := parseConsume iss uninit
      if !broker.topicExists topic then
        ⟨broker, .wrote "ERROR: Topic not found\n".toList, [.topicExists topic]⟩
      else if partition < 0 ∨ partition ≥ broker.getPartitionCount topic then
        ⟨broker, .wrote "ERROR: Invalid partition index\n".toList,
          .topicExists topic :: (if partition < 0 then [] else [.getPartitionCount topic])⟩
      else
        let calls : List Call :=
          [.topicExists topic, .getPartitionCount topic, .consumeMessage topic partition]
        match broker.consumeMessage topic partition with
        | (b, .returned msg) =>
          ⟨b, .wrote ("Consumed: ".toList ++ to_string msg.id ++ " ".toList ++ msg.content
            ++ "\n".toList), calls⟩
        | (b, .blocked) => ⟨b, .blocked, calls⟩
        | (b, .undefined) => ⟨b, .undefined, calls⟩
    else ⟨broker, .wrote "ERROR: Unknown command\n".toList, []⟩

/-- The loop of `handleClient` over the successive reads of one connection;
each read comes with the indeterminate value of that iteration.  The loop goes
on after every response and ends when a read returns nothing, or inside a call
that does not return. -/
def handleClient (broker : Broker) : List (Int × StdString) → Broker × List Reply
  | [] => (broker, [.closed])
  | (uninit, incoming) :: more =>
    let step := handleRequest broker uninit incoming
    match step.reply with
    | .wrote text =>
      let (b, replies) := handleClient step.broker more
      (b, .wrote text :: replies)
    | r => (step.broker, [r])

/-! ## Sequences of operations on partitions -/

/-- The two operations of a `Partition`. -/
inductive PartitionOp where
  | addMessage (msg : Message)
  | getMessage
  deriving DecidableEq, Repr

/-- A call of a `Partition` member function on the partition `index` of `topic`. -/
structure PartitionCall where
  topic : StdString
  index : Nat
  op : PartitionOp
  deriving DecidableEq, Repr

/-- The `Partition` objects of a program, each with its own queue, by topic and index. -/
abbrev Partitions := StdString → Nat → Partition

/-- The partitions after partition `index` of `topic` has become `p`. -/
def Partitions.update (ps : Partitions) (topic : StdString) (index : Nat) (p : Partition) :
    Partitions :=
  fun t i => if t = topic ∧ i = index then p else ps t i

/-- One call: the partitions after it and the message returned, if any.  A
`getMessage` on an empty queue (it waits) returns nothing and changes nothing. -/
def Partitions.step (ps : Partitions) (c : PartitionCall) : Partitions × Option Message :=
  match c.op with
  | .addMessage msg => (ps.update c.topic c.index ((ps c.topic c.index).addMessage msg), none)
  | .getMessage =>
    match (ps c.topic c.index).getMessage with
    | none => (ps, none)
    | some (msg, p) => (ps.update c.topic c.index p, some msg)

/-- Every `getMessage` of the sequence that is made on partition `index` of
`topic` finds the queue non-empty. -/
def neverWaits (topic : StdString) (index : Nat) (ps : Partitions) :
    List PartitionCall → Bool
  | [] => true
  | c :: cs =>
    (match c.op with
      | .addMessage _ => true
      | .getMessage =>
        if c.topic = topic ∧ c.index = index then !(ps c.topic c.index).messages.isEmpty
        else true)
    && neverWaits topic index (ps.step c).1 cs

/-- The messages returned by the `getMessage` calls on partition `index` of
`topic`, in the order of the calls. -/
def received (topic : StdString) (index : Nat) (ps : Partitions) :
    List PartitionCall → List Message
  | [] => []
  | c :: cs =>
    let rest := received topic index (ps.step c).1 cs
    if c.topic = topic ∧ c.index = index then
      match (ps.step c).2 with
      | some msg => msg :: rest
      | none => rest
    else rest

/-- The messages passed to `addMessage` on partition `index` of `topic`, in
the order of the calls. -/
def added (topic : StdString) (index : Nat) : List PartitionCall → List Message
  | [] => []
  | c :: cs =>
    match c.op with
    | .addMessage msg =>
      if c.topic = topic ∧ c.index = index then msg :: added topic index cs
      else added topic index cs
    | .getMessage => added topic index cs

/-- The number of `getMessage` calls on partition `index` of `topic`. -/
def getCount (topic : StdString) (index : Nat) : List PartitionCall → Nat
  | [] => 0
  | c :: cs =>
    match c.op with
    | .addMessage _ => getCount topic index cs
    | .getMessage =>
      if c.topic = topic ∧ c.index = index then getCount topic index cs + 1
      else getCount topic index cs

/-- Freshly constructed partitions: every queue is empty. -/
def Partitions.fresh : Partitions := fun _ _ => ⟨[]⟩

/-! ## Sequences of calls on the broker -/

/-- What a call on the broker gives back. -/
inductive Ret where
  | bool (b : Bool)
  | int (n : Int)
  | message (msg : Message)
  | blocked
  | undefined
  deriving DecidableEq, Repr

/-- One call of a public member function of `Broker`: the broker after it and
the result. -/
def Broker.call (b : Broker) : Call → Broker × Ret
  | .topicExists topic => (b, .bool (b.topicExists topic))
  | .getPartitionCount topic => (b, .int (b.getPartitionCount topic))
  | .produceMessage topic msg =>
    match b.produceMessage topic msg with
    | (b, .returned index) => (b, .int index)
    | (b, .blocked) => (b, .blocked)
    | (b, .undefined) => (b, .undefined)
  | .consumeMessage topic partition =>
    match b.consumeMessage topic partition with
    | (b, .returned msg) => (b, .message msg)
    | (b, .blocked) => (b, .blocked)
    | (b, .undefined) => (b, .undefined)

/-- A sequence of calls, in the order in which they take the registry lock:
the broker at the end and the results.  A call that blocks leaves the other
callers running; the run ends at the first call with undefined behaviour.
The run follows the registry only: a caller that waits is not followed (see
`Server.run`, where it wakes and pops its message). -/
def Broker.run (b : Broker) : List Call → Broker × List Ret
  | [] => (b, [])
  | c :: cs =>
    match b.call c with
    | (b, .undefined) => (b, [.undefined])
    | (b, r) =>
      let (b, rs) := b.run cs
      (b, r :: rs)

/-- The results of the `produceMessage` calls on `topic`, in order. -/
def produceReturns (topic : StdString) : List Call → List Ret → List Ret
  | .produceMessage t _ :: cs, r :: rs =>
    if t = topic then r :: produceReturns topic cs rs else produceReturns topic cs rs
  | _ :: cs, _ :: rs => produceReturns topic cs rs
  | _, _ => []

/-- The number of `produceMessage` calls on `topic`. -/
def produceCount (topic : StdString) : List Call → Nat
  | [] => 0
  | .produceMessage t _ :: cs =>
    if t = topic then produceCount topic cs + 1 else produceCount topic cs
  | _ :: cs => produceCount topic cs

/-- The value read by `roundRobin[topic]`. -/
def Broker.cursor (b : Broker) (topic : StdString) : Int :=
  (StdMap.index b.roundRobin topic 0).2

/-- The topic names with their partition counts. -/
def Broker.topology (b : Broker) : List (StdString × Nat) :=
  b.topics.map (fun e => (e.1, e.2.length))

/-- A registry that the running program can have: what the freshly
constructed broker has become after some sequence of calls, none of them with
undefined behaviour.  The consumers that wait are not part of it; the states
with them are `Server.reachable`, and the registry of each of those is of this
kind (`Server.reachable_broker`). -/
def Broker.reachable (b : Broker) : Prop :=
  ∃ calls : List Call, Ret.undefined ∉ (Broker.new.run calls).2 ∧ (Broker.new.run calls).1 = b

/-! ## Producing to a topic and draining it -/

/-- The cursor of `topic` is an index into its partitions, and their number
fits an `int`: the state in which `produceMessage` on `topic` is defined.
Holds for a name that is not a topic. -/
def Broker.cursorInRange (b : Broker) (topic : StdString) : Bool :=
  match StdMap.find b.topics topic with
  | none => true
  | some parts =>
    decide (0 ≤ b.cursor topic) && decide (b.cursor topic < parts.length)
      && decide ((parts.length : Int) ≤ INT_MAX)

/-- `getMessage` until the queue is empty, at most `fuel` times: the messages
taken, in order, and the partition left. -/
def Partition.drain : Nat → Partition → List Message × Partition
  | 0, p => ([], p)
  | fuel + 1, p =>
    match p.getMessage with
    | none => ([], p)
    | some (msg, q) =>
      let (msgs, r) := Partition.drain fuel q
      (msg :: msgs, r)

/-- Draining every partition of `topic`, first to last: the messages taken
and the partitions left. -/
def Broker.drainTopic (b : Broker) (fuel : Nat) (topic : StdString) :
    List Message × List Partition :=
  match StdMap.find b.topics topic with
  | none => ([], [])
  | some parts =>
    ((parts.map (fun p => (p.drain fuel).1)).flatten, parts.map (fun p => (p.drain fuel).2))

/-! ## The broker with its waiting consumers -/

/-- A thread inside `Partition::getMessage`, blocked in `cv.wait` on the
empty queue of partition `partition` of `topic`. -/
structure Waiter where
  topic : StdString
  partition : Int
  deriving DecidableEq, Repr

/-- The broker together with the consumers that wait on its condition
variables. -/
structure Server where
  broker : Broker
  waiting : List Waiter
  deriving DecidableEq, Repr

/-- The waiter that a call becomes when it blocks. -/
def Call.waiter : Call → List Waiter
  | .consumeMessage topic partition => [⟨topic, partition⟩]
  | _ => []

/-- What happens on the broker, one lock acquisition at a time: a thread
calls a member function, or a waiting consumer comes back from `cv.wait`. -/
inductive Event where
  | call (c : Call)
  | wake (w : Waiter)
  deriving DecidableEq, Repr

/-- The call of an event, if it is one. -/
def Event.call? : Event → Option Call
  | .call c => some c
  | .wake _ => none

/-- One event.  A call that blocks adds its caller to the waiting consumers.
A waiting consumer that wakes with a message in its queue pops it (the rest
of `Partition::getMessage`), and its `consumeMessage` returns; if the queue is
empty (a spurious wake-up, or another consumer was faster) it goes on
waiting.  A wake-up of a consumer that is not waiting does not occur and
changes nothing. -/
def Server.step (s : Server) : Event → Server × Ret
  | .call c =>
    let (b, r) := s.broker.call c
    (⟨b, if r = .blocked then s.waiting ++ c.waiter else s.waiting⟩, r)
  | .wake w =>
    if w ∈ s.waiting then
      match s.broker.consumeMessage w.topic w.partition with
      | (b, .returned msg) => (⟨b, s.waiting.erase w⟩, .message msg)
      | _ => (s, .blocked)
    else (s, .blocked)

/-- A sequence of events: the server at the end and the results.  The run
ends at the first call with undefined behaviour. -/
def Server.run (s : Server) : List Event → Server × List Ret
  | [] => (s, [])
  | e :: es =>
    match s.step e with
    | (s, .undefined) => (s, [.undefined])
    | (s, r) =>
      let (s, rs) := s.run es
      (s, r :: rs)

/-- The server at start-up: the constructed broker, nobody waiting. -/
def Server.new : Server := ⟨Broker.new, []⟩

/-- A state of the running server: what the server at start-up has become
after some sequence of events, none with undefined behaviour. -/
def Server.reachable (s : Server) : Prop :=
  ∃ events : List Event, Ret.undefined ∉ (Server.new.run events).2
    ∧ (Server.new.run events).1 = s

/-- One iteration of the loop of `handleClient` on the server: the handler
that blocks inside `consumeMessage` joins the waiting consumers. -/
def Server.serve (s : Server) (uninit : Int) (incoming : StdString) :
    Server × Reply :=
  let step := handleRequest s.broker uninit incoming
  (⟨step.broker,
      if step.reply = .blocked then s.waiting ++ step.calls.flatMap Call.waiter else s.waiting⟩,
    step.reply)

/-- Partition `index` of `topic`, one of `count`, has `msg` at the front of
its queue. -/
def Broker.frontIs (b : Broker) (topic : StdString) (count index : Nat) (msg : Message) :
    Prop :=
  ∃ (parts : List Partition) (rest : List Message),
    StdMap.find b.topics topic = some parts ∧ parts.length = count
      ∧ parts[index]? = some ⟨msg :: rest⟩

/-! ## The request line, as the protocol describes it -/

/-- The first whitespace-delimited token of a line, empty when there is none. -/
def firstToken (line : StdString) : StdString :=
  (line.dropWhile isspace).takeWhile (fun c => !isspace c)

/-- The line after its first token. -/
def afterFirstToken (line : StdString) : StdString :=
  (line.dropWhile isspace).dropWhile (fun c => !isspace c)

/-- The second whitespace-delimited token of a line, empty when there is none. -/
def secondToken (line : StdString) : StdString := firstToken (afterFirstToken line)

/-- A token: not empty and free of whitespace. -/
def isToken (t : StdString) : Prop := t ≠ [] ∧ ∀ c ∈ t, isspace c = false

/-- The text `tok` is an integer written in decimal: digits, with `+` or `-`
in front or not, and `n` is its value. -/
def isIntToken (tok : StdString) (n : Int) : Prop :=
  ∃ ds : StdString, ds ≠ [] ∧ (∀ c ∈ ds, isdigit c = true) ∧
    ((tok = ds ∧ n = digitsValue ds) ∨ (tok = '+' :: ds ∧ n = digitsValue ds)
      ∨ (tok = '-' :: ds ∧ n = -(digitsValue ds : Int)))

/-- The text `s` does not begin with a character satisfying `p`. -/
def notStartingWith (p : Char → Bool) (s : StdString) : Prop :=
  ∀ c, s.head? = some c → p c = false

/-- The text `s` without its first character when that is a space. -/
def dropOneSpace (s : StdString) : StdString :=
  if s.head? = some ' ' then s.tail else s

/-! # Theorems -/

/-! ## Lemmas on `std::map` -/

theorem StdMap.find_replace {V : Type} (m : StdMap V) (k k2 : StdString) (v : V) :
    StdMap.find (StdMap.replace m k v) k2
      = if k2 = k then (StdMap.find m k).map (fun _ => v) else StdMap.find m k2 := by
  induction m with
  | nil => simp [StdMap.replace, StdMap.find]
  | cons e rest ih =>
    obtain ⟨a, w⟩ := e
    by_cases h1 : a = k
    · subst h1
      by_cases h2 : k2 = a
      · subst h2; simp [StdMap.replace, StdMap.find]
      · have h3 : ¬ a = k2 := fun e => h2 e.symm
        simp [StdMap.replace, StdMap.find, h2, h3]
    · by_cases h2 : k2 = k
      · subst h2
        simp [StdMap.replace, StdMap.find, h1, ih]
      · by_cases h3 : a = k2
        · simp [StdMap.replace, StdMap.find, h1, h2, h3]
        · simp [StdMap.replace, StdMap.find, h1, h2, h3, ih]

theorem StdMap.find_insert_ne {V : Type} (m : StdMap V) (k k2 : StdString) (v : V)
    (h : k2 ≠ k) : StdMap.find (StdMap.insert m k v) k2 = StdMap.find m k2 := by
  induction m with
  | nil =>
    have h3 : ¬ k = k2 := fun e => h e.symm
    simp [StdMap.insert, StdMap.find, h3]
  | cons e rest ih =>
    obtain ⟨a, w⟩ := e
    have h3 : ¬ k = k2 := fun e => h e.symm
    by_cases hlt : k < a
    · simp [StdMap.insert, StdMap.find, hlt, h3]
    · by_cases h4 : a = k2
      · subst h4
        simp [StdMap.insert, StdMap.find, hlt]
      · simp [StdMap.insert, StdMap.find, hlt, h4, ih]

theorem StdMap.find_insert_self {V : Type} (m : StdMap V) (k : StdString) (v : V)
    (h : StdMap.find m k = none) : StdMap.find (StdMap.insert m k v) k = some v := by
  induction m with
  | nil => simp [StdMap.insert, StdMap.find]
  | cons e rest ih =>
    obtain ⟨a, w⟩ := e
    by_cases h4 : a = k
    · simp [StdMap.find, h4] at h
    · simp only [StdMap.find, h4, if_false] at h
      by_cases hlt : k < a
      · simp [StdMap.insert, StdMap.find, hlt]
      · simp [StdMap.insert, StdMap.find, hlt, h4, ih h]

theorem StdMap.find_set {V : Type} (m : StdMap V) (k k2 : StdString) (v : V) :
    StdMap.find (StdMap.set m k v) k2 = if k2 = k then some v else StdMap.find m k2 := by
  unfold StdMap.set
  cases h : StdMap.find m k with
  | none =>
    by_cases h2 : k2 = k
    · subst h2; simp [StdMap.find_insert_self m k2 v h]
    · simp [StdMap.find_insert_ne m k k2 v h2, h2]
  | some w => simp [StdMap.find_replace, h]

theorem StdMap.index_snd {V : Type} (m : StdMap V) (k : StdString) (d : V) :
    (StdMap.index m k d).2 = (StdMap.find m k).getD d := by
  unfold StdMap.index
  cases h : StdMap.find m k <;> simp

theorem StdMap.find_index {V : Type} (m : StdMap V) (k k2 : StdString) (d : V) :
    StdMap.find (StdMap.index m k d).1 k2
      = if k2 = k then some ((StdMap.find m k).getD d) else StdMap.find m k2 := by
  unfold StdMap.index
  cases h : StdMap.find m k with
  | none =>
    by_cases h2 : k2 = k
    · subst h2; simp [StdMap.find_insert_self m k2 d h]
    · simp [StdMap.find_insert_ne m k k2 d h2, h2]
  | some w =>
    by_cases h2 : k2 = k
    · subst h2; simp [h]
    · simp [h2]

theorem StdMap.index_of_find {V : Type} (m : StdMap V) (k : StdString) (d v : V)
    (h : StdMap.find m k = some v) : StdMap.index m k d = (m, v) := by
  simp [StdMap.index, h]

theorem StdMap.map_replace {V W : Type} (f : V → W) (m : StdMap V) (k : StdString) (v w : V)
    (h : StdMap.find m k = some w) (hf : f v = f w) :
    (StdMap.replace m k v).map (fun e => (e.1, f e.2)) = m.map (fun e => (e.1, f e.2)) := by
  induction m with
  | nil => simp [StdMap.replace]
  | cons e rest ih =>
    obtain ⟨a, x⟩ := e
    by_cases h1 : a = k
    · subst h1
      simp only [StdMap.find, if_true, Option.some.injEq] at h
      subst h
      simp [StdMap.replace, hf]
    · simp only [StdMap.find, h1, if_false] at h
      simp [StdMap.replace, h1, ih h]

theorem StdMap.map_set {V W : Type} (f : V → W) (m : StdMap V) (k : StdString) (v w : V)
    (h : StdMap.find m k = some w) (hf : f v = f w) :
    (StdMap.set m k v).map (fun e => (e.1, f e.2)) = m.map (fun e => (e.1, f e.2)) := by
  simp only [StdMap.set, h]
  exact StdMap.map_replace f m k v w h hf

theorem StdMap.find_map {V W : Type} (f : V → W) (m : StdMap V) (k : StdString) :
    StdMap.find (m.map (fun e => (e.1, f e.2))) k = (StdMap.find m k).map f := by
  induction m with
  | nil => simp [StdMap.find]
  | cons e rest ih =>
    obtain ⟨a, x⟩ := e
    by_cases h1 : a = k
    · simp [StdMap.find, h1]
    · simp [StdMap.find, h1, ih]

/-! ## Lemmas on the broker -/

theorem toInt32_of_range (n : Int) (h1 : -2147483648 ≤ n) (h2 : n ≤ 2147483647) :
    toInt32 n = n := by
  unfold toInt32
  omega

theorem Broker.produceMessage_unknown (b : Broker) (topic : StdString) (msg : Message)
    (h : StdMap.find b.topics topic = none) :
    b.produceMessage topic msg = (b, .returned (-1)) := by
  simp [Broker.produceMessage, h]

theorem Broker.produceMessage_known (b : Broker) (topic : StdString) (msg : Message)
    (parts : List Partition) (h : StdMap.find b.topics topic = some parts)
    (h0 : 0 ≤ b.cursor topic) (h1 : b.cursor topic < parts.length)
    (h2 : (parts.length : Int) ≤ INT_MAX) :
    ∃ part, parts[(b.cursor topic).toNat]? = some part ∧
      b.produceMessage topic msg
        = (⟨StdMap.set b.topics topic
              (parts.set (b.cursor topic).toNat (part.addMessage msg)),
            StdMap.set (StdMap.index b.roundRobin topic 0).1 topic
              ((b.cursor topic + 1) % parts.length)⟩,
           .returned (b.cursor topic)) := by
  unfold Broker.cursor at *
  rcases hidx : StdMap.index b.roundRobin topic 0 with ⟨rr, c⟩
  rw [hidx] at h0 h1
  simp only at h0 h1
  have hlt : c.toNat < parts.length := by omega
  refine ⟨parts[c.toNat], by simp [hlt], ?_⟩
  have h3 : c + 1 ≤ INT_MAX := by unfold INT_MAX at *; omega
  have h4 : toInt32 ((c + 1) % parts.length) = (c + 1) % parts.length := by
    apply toInt32_of_range
    · have := Int.emod_nonneg (c + 1) (show (parts.length : Int) ≠ 0 by omega)
      omega
    · have := Int.emod_lt_of_pos (c + 1) (show (0 : Int) < parts.length by omega)
      unfold INT_MAX at h2
      omega
  simp [Broker.produceMessage, h, hidx, h0, h1, hlt, h3, h4]

theorem Broker.produceMessage_topology (b : Broker) (topic : StdString) (msg : Message) :
    (b.produceMessage topic msg).1.topology = b.topology := by
  unfold Broker.produceMessage
  cases h : StdMap.find b.topics topic with
  | none => simp
  | some parts =>
    rcases hidx : StdMap.index b.roundRobin topic 0 with ⟨rr, c⟩
    simp only
    split
    · split
      · rfl
      · have ht : ∀ ps : List Partition, ps.length = parts.length →
            (StdMap.set b.topics topic ps).map (fun e => (e.1, e.2.length))
              = b.topics.map (fun e => (e.1, e.2.length)) := fun ps hps =>
          StdMap.map_set List.length b.topics topic ps parts h hps
        split <;> simp [Broker.topology, ht]
    · rfl

theorem Broker.produceMessage_other (b : Broker) (t topic : StdString) (msg : Message)
    (hne : topic ≠ t) :
    StdMap.find (b.produceMessage t msg).1.topics topic = StdMap.find b.topics topic
    ∧ StdMap.find (b.produceMessage t msg).1.roundRobin topic
        = StdMap.find b.roundRobin topic := by
  unfold Broker.produceMessage
  cases h : StdMap.find b.topics t with
  | none => simp
  | some parts =>
    have hi := StdMap.find_index b.roundRobin t topic 0
    rcases hidx : StdMap.index b.roundRobin t 0 with ⟨rr, c⟩
    rw [hidx] at hi
    simp only [hne, if_false] at hi
    simp only
    split
    · split
      · exact ⟨rfl, hi⟩
      · split <;> simp [StdMap.find_set, hne, hi]
    · exact ⟨rfl, hi⟩

theorem Broker.consumeMessage_roundRobin (b : Broker) (t : StdString) (p : Int) :
    (b.consumeMessage t p).1.roundRobin = b.roundRobin := by
  unfold Broker.consumeMessage
  rcases hidx : StdMap.index b.topics t [] with ⟨topics, parts⟩
  simp only
  split
  · split
    · rfl
    · split <;> rfl
  · rfl

theorem Broker.consumeMessage_topology (b : Broker) (t : StdString) (p : Int)
    (parts : List Partition) (h : StdMap.find b.topics t = some parts) :
    (b.consumeMessage t p).1.topology = b.topology := by
  unfold Broker.consumeMessage
  rw [StdMap.index_of_find b.topics t [] parts h]
  simp only
  split
  · split
    · rfl
    · split
      · rfl
      · simp only [Broker.topology]
        exact StdMap.map_set List.length b.topics t _ parts h (by simp)
  · rfl

theorem Broker.consumeMessage_length (b : Broker) (t topic : StdString) (p : Int)
    (parts : List Partition) (h : StdMap.find b.topics topic = some parts) :
    ∃ ps, StdMap.find (b.consumeMessage t p).1.topics topic = some ps
      ∧ ps.length = parts.length := by
  by_cases hne : topic = t
  · subst hne
    have := congrArg (fun m => StdMap.find m topic) (Broker.consumeMessage_topology b topic p parts h)
    simp only [Broker.topology, StdMap.find_map, h, Option.map_some'] at this
    cases h2 : StdMap.find (b.consumeMessage topic p).1.topics topic with
    | none => simp [h2] at this
    | some ps => exact ⟨ps, rfl, by simpa [h2] using this⟩
  · refine ⟨parts, ?_, rfl⟩
    rw [← h]
    unfold Broker.consumeMessage
    have hi := StdMap.find_index b.topics t topic []
    rcases hidx : StdMap.index b.topics t [] with ⟨topics, ps⟩
    rw [hidx] at hi
    simp only [hne, if_false] at hi
    simp only
    split
    · split
      · exact hi
      · split
        · exact hi
        · simp [StdMap.find_set, hne, hi]
    · exact hi

theorem Broker.run_cons (b : Broker) (c : Call) (cs : List Call) :
    b.run (c :: cs)
      = if (b.call c).2 = .undefined then ((b.call c).1, [.undefined])
        else (((b.call c).1.run cs).1, (b.call c).2 :: ((b.call c).1.run cs).2) := by
  rcases h : b.call c with ⟨b2, r⟩
  cases r <;> simp [Broker.run, h]

theorem Broker.cursor_eq (b : Broker) (topic : StdString) (c : Int)
    (h : StdMap.find b.roundRobin topic = some c) : b.cursor topic = c := by
  simp [Broker.cursor, StdMap.index_snd, h]

theorem Broker.new_find (topic : StdString) (parts : List Partition)
    (h : StdMap.find Broker.new.topics topic = some parts) :
    (topic = "topic1".toList ∧ parts.length = 3 ∨ topic = "topic2".toList ∧ parts.length = 2)
    ∧ StdMap.find Broker.new.roundRobin topic = some 0 := by
  have e1 : Broker.new.topics
      = [("topic1".toList, [⟨[]⟩, ⟨[]⟩, ⟨[]⟩]), ("topic2".toList, [⟨[]⟩, ⟨[]⟩])] := by decide
  have e2 : Broker.new.roundRobin = [("topic1".toList, 0), ("topic2".toList, 0)] := by decide
  rw [e1] at h
  rw [e2]
  by_cases h1 : "topic1".toList = topic
  · rw [StdMap.find, if_pos h1] at h
    rw [StdMap.find, if_pos h1]
    injection h with h
    subst h
    exact ⟨Or.inl ⟨h1.symm, rfl⟩, rfl⟩
  · rw [StdMap.find, if_neg h1] at h
    rw [StdMap.find, if_neg h1]
    by_cases h2 : "topic2".toList = topic
    · rw [StdMap.find, if_pos h2] at h
      rw [StdMap.find, if_pos h2]
      injection h with h
      subst h
      exact ⟨Or.inr ⟨h2.symm, rfl⟩, rfl⟩
    · rw [StdMap.find, if_neg h2, StdMap.find] at h
      cases h

theorem Broker.call_topology (b : Broker) (c : Call)
    (h : ∀ t p, c = Call.consumeMessage t p → b.topicExists t = true) :
    (b.call c).1.topology = b.topology := by
  cases c with
  | topicExists t => rfl
  | getPartitionCount t => rfl
  | produceMessage t msg =>
    have := Broker.produceMessage_topology b t msg
    rcases hcall : b.produceMessage t msg with ⟨b2, r⟩
    rw [hcall] at this
    cases r <;> simpa [Broker.call, hcall] using this
  | consumeMessage t p =>
    have hex := h t p rfl
    unfold Broker.topicExists at hex
    cases hf : StdMap.find b.topics t with
    | none => simp [hf] at hex
    | some parts =>
      have := Broker.consumeMessage_topology b t p parts hf
      rcases hcall : b.consumeMessage t p with ⟨b2, r⟩
      rw [hcall] at this
      cases r <;> simpa [Broker.call, hcall] using this

theorem Broker.find_length_of_topology (b b2 : Broker) (h : b2.topology = b.topology)
    (t : StdString) :
    (StdMap.find b2.topics t).map List.length = (StdMap.find b.topics t).map List.length := by
  have := congrArg (fun m => StdMap.find m t) h
  simpa [Broker.topology, StdMap.find_map] using this

theorem Broker.topicExists_of_topology (b b2 : Broker) (h : b2.topology = b.topology)
    (t : StdString) : b2.topicExists t = b.topicExists t := by
  have := Broker.find_length_of_topology b b2 h t
  unfold Broker.topicExists
  cases h1 : StdMap.find b2.topics t <;> cases h2 : StdMap.find b.topics t <;>
    simp [h1, h2] at this ⊢

theorem Broker.getPartitionCount_of_topology (b b2 : Broker) (h : b2.topology = b.topology)
    (t : StdString) : b2.getPartitionCount t = b.getPartitionCount t := by
  have := Broker.find_length_of_topology b b2 h t
  unfold Broker.getPartitionCount
  cases h1 : StdMap.find b2.topics t <;> cases h2 : StdMap.find b.topics t <;>
    simp [h1, h2] at this ⊢
  rw [this]

theorem Broker.run_topology (calls : List Call) :
    ∀ b : Broker, (∀ t p, Call.consumeMessage t p ∈ calls → b.topicExists t = true) →
      (b.run calls).1.topology = b.topology := by
  induction calls with
  | nil => intro b _; rfl
  | cons c cs ih =>
    intro b h
    have h1 : (b.call c).1.topology = b.topology :=
      Broker.call_topology b c (fun t p e => h t p (by simp [e]))
    rw [Broker.run_cons]
    split
    · exact h1
    · simp only
      rw [ih (b.call c).1 ?_, h1]
      intro t p hm
      rw [Broker.topicExists_of_topology b _ h1]
      exact h t p (List.mem_cons_of_mem _ hm)

/-! ## The cursor invariant holds in every state the broker reaches -/

theorem Broker.cursorInRange_congr (b b2 : Broker) (t : StdString)
    (h1 : (StdMap.find b2.topics t).map List.length = (StdMap.find b.topics t).map List.length)
    (h2 : b2.cursor t = b.cursor t) : b2.cursorInRange t = b.cursorInRange t := by
  unfold Broker.cursorInRange
  rw [h2]
  cases e1 : StdMap.find b2.topics t <;> cases e2 : StdMap.find b.topics t <;>
    simp [e1, e2] at h1 ⊢
  rw [h1]

theorem Broker.cursor_congr (b b2 : Broker) (t : StdString)
    (h : StdMap.find b2.roundRobin t = StdMap.find b.roundRobin t) :
    b2.cursor t = b.cursor t := by
  simp [Broker.cursor, StdMap.index_snd, h]

theorem Broker.consumeMessage_unknown (b : Broker) (t : StdString) (p : Int)
    (h : StdMap.find b.topics t = none) : (b.consumeMessage t p).2 = .undefined := by
  unfold Broker.consumeMessage
  simp only [StdMap.index, h, List.length_nil, Nat.cast_zero]
  rw [if_neg (by omega)]

theorem Broker.call_cursorInRange (b : Broker) (c : Call)
    (hinv : ∀ t, b.cursorInRange t = true) (hdef : (b.call c).2 ≠ .undefined) :
    ∀ t, (b.call c).1.cursorInRange t = true := by
  intro t2
  cases c with
  | topicExists t => exact hinv t2
  | getPartitionCount t => exact hinv t2
  | produceMessage t msg =>
    have hcall : (b.call (.produceMessage t msg)).1 = (b.produceMessage t msg).1 := by
      rcases hx : b.produceMessage t msg with ⟨b2, r⟩
      cases r <;> simp [Broker.call, hx]
    rw [hcall]
    by_cases hne : t2 = t
    · subst hne
      cases hf : StdMap.find b.topics t2 with
      | none => rw [Broker.produceMessage_unknown b t2 msg hf]; exact hinv t2
      | some parts =>
        have hc := hinv t2
        simp only [Broker.cursorInRange, hf, Bool.and_eq_true, decide_eq_true_eq] at hc
        obtain ⟨⟨c0, c1⟩, c2⟩ := hc
        obtain ⟨part, _, hr⟩ := Broker.produceMessage_known b t2 msg parts hf c0 c1 c2
        have hpos : (0 : Int) < parts.length := by omega
        have hcur : (b.produceMessage t2 msg).1.cursor t2
            = (b.cursor t2 + 1) % parts.length := by
          apply Broker.cursor_eq
          rw [hr]
          simp [StdMap.find_set]
        have hfind : StdMap.find (b.produceMessage t2 msg).1.topics t2
            = some (parts.set (b.cursor t2).toNat (part.addMessage msg)) := by
          rw [hr]
          simp [StdMap.find_set]
        simp only [Broker.cursorInRange, hfind, hcur, List.length_set, Bool.and_eq_true,
          decide_eq_true_eq]
        exact ⟨⟨Int.emod_nonneg _ (by omega), Int.emod_lt_of_pos _ hpos⟩, c2⟩
    · obtain ⟨f1, f2⟩ := Broker.produceMessage_other b t t2 msg hne
      rw [Broker.cursorInRange_congr b _ t2 (by rw [f1]) (Broker.cursor_congr b _ t2 f2)]
      exact hinv t2
  | consumeMessage t p =>
    have hcall : (b.call (.consumeMessage t p)).1 = (b.consumeMessage t p).1
        ∧ ((b.call (.consumeMessage t p)).2 = .undefined
            ↔ (b.consumeMessage t p).2 = .undefined) := by
      rcases hx : b.consumeMessage t p with ⟨b2, r⟩
      cases r <;> simp [Broker.call, hx]
    rw [hcall.1]
    cases hf : StdMap.find b.topics t with
    | none => exact absurd (hcall.2.mpr (Broker.consumeMessage_unknown b t p hf)) hdef
    | some parts =>
      have h1 := Broker.find_length_of_topology b _
        (Broker.consumeMessage_topology b t p parts hf) t2
      have h2 := Broker.cursor_congr b (b.consumeMessage t p).1 t2
        (by rw [Broker.consumeMessage_roundRobin])
      rw [Broker.cursorInRange_congr b _ t2 h1 h2]
      exact hinv t2

theorem Broker.new_cursorInRange (t : StdString) : Broker.new.cursorInRange t = true := by
  unfold Broker.cursorInRange
  cases hf : StdMap.find Broker.new.topics t with
  | none => rfl
  | some parts =>
    obtain ⟨hcase, hrr⟩ := Broker.new_find t parts hf
    have hc := Broker.cursor_eq Broker.new t 0 hrr
    simp only [hc, Bool.and_eq_true, decide_eq_true_eq]
    unfold INT_MAX
    rcases hcase with ⟨_, h3⟩ | ⟨_, h3⟩ <;> omega

/-- In every state that the fresh broker reaches by calls without undefined
behaviour, the cursor of each topic is an index into its partitions. -/
theorem Broker.run_cursorInRange (calls : List Call) :
    ∀ b : Broker, (∀ t, b.cursorInRange t = true) → Ret.undefined ∉ (b.run calls).2 →
      ∀ t, (b.run calls).1.cursorInRange t = true := by
  induction calls with
  | nil => intro b h _; exact h
  | cons c cs ih =>
    intro b hinv hdef
    rw [Broker.run_cons] at hdef ⊢
    by_cases hu : (b.call c).2 = .undefined
    · rw [if_pos hu] at hdef
      simp at hdef
    · rw [if_neg hu] at hdef ⊢
      simp only [List.mem_cons, not_or] at hdef
      exact ih _ (Broker.call_cursorInRange b c hinv hu) hdef.2

theorem Broker.call_topology_of_defined (b : Broker) (c : Call)
    (hdef : (b.call c).2 ≠ .undefined) : (b.call c).1.topology = b.topology := by
  apply Broker.call_topology
  intro t p hc
  subst hc
  unfold Broker.topicExists
  cases hf : StdMap.find b.topics t with
  | some parts => rfl
  | none =>
    exfalso
    apply hdef
    have := Broker.consumeMessage_unknown b t p hf
    rcases hx : b.consumeMessage t p with ⟨b2, r⟩
    rw [hx] at this
    simp only at this
    subst this
    simp [Broker.call, hx]

theorem Broker.run_topology_of_defined (calls : List Call) :
    ∀ b : Broker, Ret.undefined ∉ (b.run calls).2 → (b.run calls).1.topology = b.topology := by
  induction calls with
  | nil => intro b _; rfl
  | cons c cs ih =>
    intro b hdef
    rw [Broker.run_cons] at hdef ⊢
    by_cases hu : (b.call c).2 = .undefined
    · rw [if_pos hu] at hdef
      simp at hdef
    · rw [if_neg hu] at hdef ⊢
      simp only [List.mem_cons, not_or] at hdef
      exact (ih _ hdef.2).trans (Broker.call_topology_of_defined b c hu)

/-- The states of the running program keep the topics of the constructor and
valid cursors. -/
theorem Broker.reachable_spec (b : Broker) (h : b.reachable) :
    b.topology = [("topic1".toList, 3), ("topic2".toList, 2)]
    ∧ ∀ t, b.cursorInRange t = true := by
  obtain ⟨calls, hdef, rfl⟩ := h
  exact ⟨(Broker.run_topology_of_defined calls Broker.new hdef).trans (by decide),
    Broker.run_cursorInRange calls Broker.new Broker.new_cursorInRange hdef⟩

theorem Broker.reachable_find (b : Broker) (h : b.reachable) (topic : StdString)
    (parts : List Partition) (hf : StdMap.find b.topics topic = some parts) :
    (topic = "topic1".toList ∧ parts.length = 3) ∨ (topic = "topic2".toList ∧ parts.length = 2) := by
  have ht := (Broker.reachable_spec b h).1
  have := congrArg (fun m => StdMap.find m topic) ht
  simp only [Broker.topology, StdMap.find_map, hf, Option.map_some'] at this
  by_cases h1 : "topic1".toList = topic
  · rw [StdMap.find, if_pos h1] at this
    injection this with this
    exact Or.inl ⟨h1.symm, this⟩
  · rw [StdMap.find, if_neg h1] at this
    by_cases h2 : "topic2".toList = topic
    · rw [StdMap.find, if_pos h2] at this
      injection this with this
      exact Or.inr ⟨h2.symm, this⟩
    · rw [StdMap.find, if_neg h2, StdMap.find] at this
      cases this

theorem Broker.new_reachable : Broker.new.reachable := ⟨[], by decide, rfl⟩

theorem Broker.reachable_topic (b : Broker) (h : b.reachable) (topic : StdString)
    (parts : List Partition) (hf : StdMap.find b.topics topic = some parts) :
    isToken topic ∧ (∀ c ∈ topic, c ≠ NUL) ∧ topic.length = 6
      ∧ b.cursorInRange topic = true := by
  have hc := (Broker.reachable_spec b h).2 topic
  rcases Broker.reachable_find b h topic parts hf with ⟨rfl, _⟩ | ⟨rfl, _⟩
  · exact ⟨⟨by decide, by decide⟩, by decide, by decide, hc⟩
  · exact ⟨⟨by decide, by decide⟩, by decide, by decide, hc⟩

/-! ## Lemmas on characters and digits -/

theorem takeWhile_append_stop (p : Char → Bool) (a b : StdString)
    (ha : ∀ c ∈ a, p c = true) (hb : notStartingWith p b) :
    (a ++ b).takeWhile p = a ∧ (a ++ b).dropWhile p = b := by
  induction a with
  | nil =>
    cases b with
    | nil => simp
    | cons x xs =>
      have := hb x rfl
      simp [List.takeWhile, List.dropWhile, this]
  | cons x xs ih =>
    have hx := ha x (by simp)
    obtain ⟨i1, i2⟩ := ih (fun c hc => ha c (List.mem_cons_of_mem _ hc))
    simp [List.takeWhile, List.dropWhile, hx, i1, i2]

theorem isdigit_not_space (c : Char) (h : isdigit c = true) : isspace c = false := by
  simp only [isdigit, Bool.and_eq_true, decide_eq_true_eq] at h
  obtain ⟨h1, h2⟩ := h
  have h1n : (48 : Nat) ≤ c.toNat := h1
  simp only [isspace, Bool.or_eq_false_iff, beq_eq_false_iff_ne, ne_eq]
  refine ⟨⟨⟨⟨⟨?_, ?_⟩, ?_⟩, ?_⟩, ?_⟩, ?_⟩ <;>
    (intro e; rw [e] at h1n; revert h1n; decide)

theorem isdigit_not_sign (c : Char) (h : isdigit c = true) : c ≠ '-' ∧ c ≠ '+' := by
  simp only [isdigit, Bool.and_eq_true, decide_eq_true_eq] at h
  obtain ⟨h1, h2⟩ := h
  have h1n : (48 : Nat) ≤ c.toNat := h1
  constructor <;> (intro e; rw [e] at h1n; revert h1n; decide)

theorem digitChar_spec : ∀ k : Nat, k < 10 →
    isdigit (Nat.digitChar k) = true ∧ (Nat.digitChar k).toNat - 48 = k := by
  decide

theorem digitsValue_append (l : StdString) (d : Char) :
    digitsValue (l ++ [d]) = digitsValue l * 10 + (d.toNat - 48) := by
  simp [digitsValue, List.foldl_append]

theorem toDigitsCore_spec (fuel : Nat) :
    ∀ (n : Nat) (acc : List Char), n < fuel →
      ∃ l : List Char, Nat.toDigitsCore 10 fuel n acc = l ++ acc ∧ l ≠ []
        ∧ (∀ c ∈ l, isdigit c = true) ∧ digitsValue l = n := by
  induction fuel with
  | zero => intro n acc h; omega
  | succ f ih =>
    intro n acc h
    obtain ⟨d1, d2⟩ := digitChar_spec (n % 10) (Nat.mod_lt _ (by decide))
    by_cases hz : n / 10 = 0
    · refine ⟨[Nat.digitChar (n % 10)], by simp [Nat.toDigitsCore, hz], by simp, ?_, ?_⟩
      · intro c hc
        simp only [List.mem_singleton] at hc
        rw [hc]; exact d1
      · have : digitsValue [Nat.digitChar (n % 10)] = (Nat.digitChar (n % 10)).toNat - 48 := by
          simp [digitsValue]
        rw [this, d2]
        omega
    · obtain ⟨l, e1, _, e3, e4⟩ := ih (n / 10) (Nat.digitChar (n % 10) :: acc) (by omega)
      refine ⟨l ++ [Nat.digitChar (n % 10)], ?_, by simp, ?_, ?_⟩
      · simp [Nat.toDigitsCore, hz, e1]
      · intro c hc
        simp only [List.mem_append, List.mem_singleton] at hc
        rcases hc with hc | hc
        · exact e3 c hc
        · rw [hc]; exact d1
      · rw [digitsValue_append, e4, d2]
        omega

theorem toDigits_spec (n : Nat) :
    Nat.toDigits 10 n ≠ [] ∧ (∀ c ∈ Nat.toDigits 10 n, isdigit c = true)
      ∧ digitsValue (Nat.toDigits 10 n) = n := by
  obtain ⟨l, e1, e2, e3, e4⟩ := toDigitsCore_spec (n + 1) n [] (by omega)
  have : Nat.toDigits 10 n = l := by simpa [Nat.toDigits] using e1
  rw [this]
  exact ⟨e2, e3, e4⟩

theorem to_string_isIntToken (n : Int) : isIntToken (to_string n) n := by
  by_cases h : n < 0
  · obtain ⟨e2, e3, e4⟩ := toDigits_spec n.natAbs
    refine ⟨Nat.toDigits 10 n.natAbs, e2, e3, Or.inr (Or.inr ⟨by simp [to_string, h], ?_⟩)⟩
    rw [e4]
    omega
  · obtain ⟨e2, e3, e4⟩ := toDigits_spec n.toNat
    refine ⟨Nat.toDigits 10 n.toNat, e2, e3, Or.inl ⟨by simp [to_string, h], ?_⟩⟩
    rw [e4]
    omega

/-! ## Lemmas on the stream -/

theorem firstToken_append (ws tok rest : StdString) (hws : ∀ c ∈ ws, isspace c = true)
    (htok : isToken tok) (hrest : notStartingWith (fun c => !isspace c) rest) :
    firstToken (ws ++ tok ++ rest) = tok ∧ afterFirstToken (ws ++ tok ++ rest) = rest
      ∧ (ws ++ tok ++ rest).dropWhile isspace = tok ++ rest := by
  obtain ⟨hne, hall⟩ := htok
  have h1 : notStartingWith isspace (tok ++ rest) := by
    intro c hc
    cases tok with
    | nil => exact absurd rfl hne
    | cons x xs =>
      simp only [List.cons_append, List.head?_cons, Option.some.injEq] at hc
      rw [← hc]
      exact hall x (by simp)
  have h2 := (takeWhile_append_stop isspace ws (tok ++ rest) hws h1).2
  have h3 := takeWhile_append_stop (fun c => !isspace c) tok rest
    (fun c hc => by simp [hall c hc]) hrest
  rw [List.append_assoc]
  exact ⟨by rw [firstToken, h2]; exact h3.1, by rw [afterFirstToken, h2]; exact h3.2, h2⟩

theorem IStringStream.extractString_good (s : IStringStream) (str : StdString)
    (h : s.good = true) (hne : s.buf.dropWhile isspace ≠ []) :
    s.extractString str
      = (⟨afterFirstToken s.buf, (afterFirstToken s.buf).isEmpty, false⟩, firstToken s.buf) := by
  unfold IStringStream.extractString
  rw [if_pos h]
  cases hd : s.buf.dropWhile isspace with
  | nil => exact absurd hd hne
  | cons c cs => simp [afterFirstToken, firstToken, hd]

theorem IStringStream.extractString_tokens (r : StdString) :
    ((IStringStream.ofString r).extractString []).2 = firstToken r
    ∧ ((((IStringStream.ofString r).extractString []).1).extractString []).2 = secondToken r := by
  unfold IStringStream.ofString
  cases hd : r.dropWhile isspace with
  | nil =>
    simp [IStringStream.extractString, IStringStream.good, hd, firstToken, secondToken,
      afterFirstToken]
  | cons c cs =>
    have hg : (⟨r, false, false⟩ : IStringStream).good = true := rfl
    rw [IStringStream.extractString_good ⟨r, false, false⟩ [] hg (by simp [hd])]
    refine ⟨rfl, ?_⟩
    simp only [secondToken]
    cases ha : afterFirstToken r with
    | nil => simp [IStringStream.extractString, IStringStream.good, firstToken]
    | cons x xs =>
      cases hd2 : (x :: xs).dropWhile isspace with
      | nil =>
        simp [IStringStream.extractString, IStringStream.good, firstToken, hd2]
      | cons y ys =>
        rw [IStringStream.extractString_good _ [] (by simp [IStringStream.good])
          (by simp [hd2])]

theorem IStringStream.extractInt_token (s : IStringStream) (u n : Int)
    (ws tok rest : StdString) (h : s.good = true) (hbuf : s.buf = ws ++ tok ++ rest)
    (hws : ∀ c ∈ ws, isspace c = true) (htok : isIntToken tok n)
    (hmin : INT_MIN ≤ n) (hmax : n ≤ INT_MAX) (hrest : notStartingWith isdigit rest) :
    s.extractInt u = (⟨rest, rest.isEmpty, false⟩, n) := by
  obtain ⟨ds, hne, hds, hcase⟩ := htok
  obtain ⟨d, ds2, rfl⟩ := List.exists_cons_of_ne_nil hne
  have hd := hds d (by simp)
  have hdsp := isdigit_not_space d hd
  obtain ⟨hdm, hdp⟩ := isdigit_not_sign d hd
  have hsplit := takeWhile_append_stop isdigit (d :: ds2) rest hds hrest
  have hgt : ¬ ((digitsValue (d :: ds2) : Int) > INT_MAX)
      ∨ ¬ (-(digitsValue (d :: ds2) : Int) < INT_MIN) := by
    unfold INT_MAX INT_MIN at *
    omega
  unfold IStringStream.extractInt
  rw [if_pos h, hbuf, List.append_assoc]
  rcases hcase with ⟨rfl, hn⟩ | ⟨rfl, hn⟩ | ⟨rfl, hn⟩
  · have h2 := (takeWhile_append_stop isspace ws ((d :: ds2) ++ rest) hws
      (by intro c hc; simp only [List.cons_append, List.head?_cons, Option.some.injEq] at hc
          rw [← hc]; exact hdsp)).2
    rw [h2]
    simp only [List.cons_append] at hsplit ⊢
    have hb1 : (d == '-') = false := by simpa using hdm
    have hb2 : (d == '+') = false := by simpa using hdp
    simp only [hb1, hb2, Bool.or_self, Bool.false_eq_true, if_false, hsplit.1, hsplit.2,
      List.isEmpty_cons]
    rw [← hn, if_neg (by omega), if_neg (by omega)]
  · have h2 := (takeWhile_append_stop isspace ws (('+' :: d :: ds2) ++ rest) hws
      (by intro c hc; simp only [List.cons_append, List.head?_cons, Option.some.injEq] at hc
          rw [← hc]; decide)).2
    rw [h2]
    simp only [List.cons_append] at hsplit ⊢
    have hb1 : ('+' == '-') = false := by decide
    have hb2 : ('+' == '+') = true := by decide
    simp only [hb1, hb2, Bool.or_true, Bool.false_eq_true, if_false, if_true, hsplit.1,
      hsplit.2, List.isEmpty_cons]
    rw [← hn, if_neg (by omega), if_neg (by omega)]
  · have h2 := (takeWhile_append_stop isspace ws (('-' :: d :: ds2) ++ rest) hws
      (by intro c hc; simp only [List.cons_append, List.head?_cons, Option.some.injEq] at hc
          rw [← hc]; decide)).2
    rw [h2]
    simp only [List.cons_append] at hsplit ⊢
    have hb1 : ('-' == '-') = true := by decide
    simp only [hb1, Bool.true_or, if_true, hsplit.1, hsplit.2, List.isEmpty_cons,
      Bool.false_eq_true, if_false]
    rw [← hn, if_neg (by omega), if_neg (by omega)]

theorem IStringStream.getline_after (rest : StdString) :
    ((⟨rest, rest.isEmpty, false⟩ : IStringStream).getline []).2
      = rest.takeWhile (fun x => x != '\n') := by
  cases rest with
  | nil => simp [IStringStream.getline, IStringStream.good]
  | cons x xs =>
    simp only [IStringStream.getline, IStringStream.good, List.isEmpty_cons, Bool.not_false,
      Bool.and_self, if_true]
    split <;> rfl

theorem requestOf_eq (r : StdString) (hnul : ∀ c ∈ r, c ≠ NUL)
    (hfit : r.length ≤ BUFFER_SIZE - 1) : requestOf r = r := by
  unfold requestOf
  rw [List.take_of_length_le hfit]
  apply List.takeWhile_eq_self_iff.mpr
  intro c hc
  simpa using hnul c hc

theorem toDigitsCore_length (fuel : Nat) :
    ∀ (n k : Nat) (acc : List Char), n < fuel → 1 ≤ k → n < 10 ^ k →
      (Nat.toDigitsCore 10 fuel n acc).length ≤ k + acc.length := by
  induction fuel with
  | zero => intro n k acc h; omega
  | succ f ih =>
    intro n k acc h hk hn
    by_cases hz : n / 10 = 0
    · simp only [Nat.toDigitsCore, hz, if_true, List.length_cons]
      omega
    · simp only [Nat.toDigitsCore, hz, if_false]
      have hk2 : 2 ≤ k := by
        by_contra hc
        have : k = 1 := by omega
        subst this
        omega
      have hpow : 10 ^ k = 10 * 10 ^ (k - 1) := by
        rw [← Nat.pow_succ']
        congr 1
        omega
      have := ih (n / 10) (k - 1) (Nat.digitChar (n % 10) :: acc) (by omega) (by omega)
        (by rw [hpow] at hn; omega)
      simp only [List.length_cons] at this
      omega

theorem to_string_length (n : Int) (hmin : INT_MIN ≤ n) (hmax : n ≤ INT_MAX) :
    (to_string n).length ≤ 11 := by
  unfold INT_MIN at hmin
  unfold INT_MAX at hmax
  unfold to_string
  split
  · have := toDigitsCore_length (n.natAbs + 1) n.natAbs 10 [] (by omega) (by omega) (by omega)
    simp only [List.length_cons, Nat.toDigits]
    simp only [List.length_nil] at this
    omega
  · have := toDigitsCore_length (n.toNat + 1) n.toNat 10 [] (by omega) (by omega) (by omega)
    simp only [Nat.toDigits]
    simp only [List.length_nil] at this
    omega

/-! ## Lemmas on the server -/

theorem Server.run_event (s : Server) (e : Event) (es : List Event) :
    s.run (e :: es)
      = if (s.step e).2 = .undefined then ((s.step e).1, [.undefined])
        else (((s.step e).1.run es).1, (s.step e).2 :: ((s.step e).1.run es).2) := by
  rcases h : s.step e with ⟨s2, r⟩
  cases r <;> simp [Server.run, h]

theorem Broker.call_produceMessage (b : Broker) (t : StdString) (msg : Message) :
    (b.call (.produceMessage t msg)).1 = (b.produceMessage t msg).1 := by
  rcases hx : b.produceMessage t msg with ⟨b2, r⟩
  cases r <;> simp [Broker.call, hx]

theorem Broker.call_consumeMessage (b : Broker) (t : StdString) (p : Int) :
    (b.call (.consumeMessage t p)).1 = (b.consumeMessage t p).1
    ∧ ((b.call (.consumeMessage t p)).2 = .undefined
        ↔ (b.consumeMessage t p).2 = .undefined) := by
  rcases hx : b.consumeMessage t p with ⟨b2, r⟩
  cases r <;> simp [Broker.call, hx]

theorem Server.step_call (s : Server) (c : Call) :
    (s.step (.call c)).1.broker = (s.broker.call c).1
    ∧ (s.step (.call c)).2 = (s.broker.call c).2 := by
  simp [Server.step]

/-- The broker of the server after an event is the broker it had, or that
broker after a call without undefined behaviour. -/
theorem Server.step_broker (s : Server) (e : Event) (hdef : (s.step e).2 ≠ .undefined) :
    (s.step e).1.broker = s.broker
    ∨ ∃ c, (s.broker.call c).2 ≠ .undefined ∧ (s.step e).1.broker = (s.broker.call c).1 := by
  cases e with
  | call c =>
    obtain ⟨h1, h2⟩ := Server.step_call s c
    exact Or.inr ⟨c, by rw [← h2]; exact hdef, h1⟩
  | wake w =>
    by_cases hw : w ∈ s.waiting
    · rcases hx : s.broker.consumeMessage w.topic w.partition with ⟨b2, r⟩
      cases r with
      | returned msg =>
        refine Or.inr ⟨.consumeMessage w.topic w.partition, ?_, ?_⟩
        · simp [Broker.call, hx]
        · simp [Server.step, hw, Broker.call, hx]
      | blocked => left; simp [Server.step, hw, hx]
      | undefined => left; simp [Server.step, hw, hx]
    · left; simp [Server.step, hw]

theorem Server.run_invariant (events : List Event) :
    ∀ s : Server,
      s.broker.topology = [("topic1".toList, 3), ("topic2".toList, 2)] →
      (∀ t, s.broker.cursorInRange t = true) →
      Ret.undefined ∉ (s.run events).2 →
      (s.run events).1.broker.topology = [("topic1".toList, 3), ("topic2".toList, 2)]
      ∧ ∀ t, (s.run events).1.broker.cursorInRange t = true := by
  induction events with
  | nil => intro s h1 h2 _; exact ⟨h1, h2⟩
  | cons e es ih =>
    intro s h1 h2 hdef
    rw [Server.run_event] at hdef ⊢
    by_cases hu : (s.step e).2 = .undefined
    · rw [if_pos hu] at hdef
      simp at hdef
    · rw [if_neg hu] at hdef ⊢
      simp only [List.mem_cons, not_or] at hdef
      rcases Server.step_broker s e hu with hb | ⟨c, hc, hb⟩
      · exact ih _ (by rw [hb]; exact h1) (by rw [hb]; exact h2) hdef.2
      · exact ih _ (by rw [hb, Broker.call_topology_of_defined s.broker c hc]; exact h1)
          (by rw [hb]; exact Broker.call_cursorInRange s.broker c h2 hc) hdef.2

theorem Server.run_broker (events : List Event) :
    ∀ s : Server, Ret.undefined ∉ (s.run events).2 →
      ∃ calls : List Call, Ret.undefined ∉ (s.broker.run calls).2
        ∧ (s.broker.run calls).1 = (s.run events).1.broker := by
  induction events with
  | nil => intro s _; exact ⟨[], by simp [Broker.run], rfl⟩
  | cons e es ih =>
    intro s hdef
    rw [Server.run_event] at hdef ⊢
    by_cases hu : (s.step e).2 = .undefined
    · rw [if_pos hu] at hdef
      simp at hdef
    · rw [if_neg hu] at hdef ⊢
      simp only [List.mem_cons, not_or] at hdef
      obtain ⟨calls, h1, h2⟩ := ih _ hdef.2
      rcases Server.step_broker s e hu with hb | ⟨c, hc, hb⟩
      · exact ⟨calls, by rw [← hb]; exact h1, by rw [← hb]; exact h2⟩
      · refine ⟨c :: calls, ?_, ?_⟩
        · rw [Broker.run_cons, if_neg hc, ← hb]
          simp only [List.mem_cons, not_or]
          exact ⟨Ne.symm hc, h1⟩
        · rw [Broker.run_cons, if_neg hc, ← hb]
          exact h2

/-- The registry of a state of the running server is a registry that the
broker reaches by calls. -/
theorem Server.reachable_broker (s : Server) (h : s.reachable) : s.broker.reachable := by
  obtain ⟨events, hdef, rfl⟩ := h
  exact Server.run_broker events Server.new hdef

/-- The states of the running server keep the topics of the constructor,
with names that are tokens, and valid cursors. -/
theorem Server.running_topic (s : Server) (h : s.reachable) (topic : StdString)
    (parts : List Partition) (hf : StdMap.find s.broker.topics topic = some parts) :
    isToken topic ∧ (∀ c ∈ topic, c ≠ NUL) ∧ topic.length = 6
      ∧ s.broker.cursorInRange topic = true := by
  obtain ⟨events, hdef, rfl⟩ := h
  obtain ⟨ht, hc⟩ := Server.run_invariant events Server.new (by decide)
    Broker.new_cursorInRange hdef
  have := congrArg (fun m => StdMap.find m topic) ht
  simp only [Broker.topology, StdMap.find_map, hf, Option.map_some'] at this
  by_cases h1 : "topic1".toList = topic
  · subst h1
    exact ⟨⟨by decide, by decide⟩, by decide, by decide, hc _⟩
  · rw [StdMap.find, if_neg h1] at this
    by_cases h2 : "topic2".toList = topic
    · subst h2
      exact ⟨⟨by decide, by decide⟩, by decide, by decide, hc _⟩
    · rw [StdMap.find, if_neg h2, StdMap.find] at this
      cases this

theorem Broker.consumeMessage_other (b : Broker) (t topic : StdString) (p : Int)
    (hne : topic ≠ t) :
    StdMap.find (b.consumeMessage t p).1.topics topic = StdMap.find b.topics topic := by
  unfold Broker.consumeMessage
  have hi := StdMap.find_index b.topics t topic []
  rcases hidx : StdMap.index b.topics t [] with ⟨topics, ps⟩
  rw [hidx] at hi
  simp only [hne, if_false] at hi
  simp only
  split
  · split
    · exact hi
    · split
      · exact hi
      · simp [StdMap.find_set, hne, hi]
  · exact hi

theorem Broker.produceMessage_frontIs (b : Broker) (t topic : StdString) (m msg : Message)
    (count index : Nat) (h : b.frontIs topic count index msg) :
    (b.produceMessage t m).1.frontIs topic count index msg := by
  obtain ⟨parts, rest, hf, hlen, hget⟩ := h
  by_cases hne : topic = t
  · subst hne
    unfold Broker.produceMessage
    simp only [hf]
    rcases hidx : StdMap.index b.roundRobin topic 0 with ⟨rr, c⟩
    simp only
    split
    · split
      · exact ⟨parts, rest, hf, hlen, hget⟩
      · rename_i part hpart
        have hnew : ∃ rest2, (parts.set c.toNat (part.addMessage m))[index]?
            = some ⟨msg :: rest2⟩ := by
          by_cases hi : c.toNat = index
          · subst hi
            rw [hpart] at hget
            injection hget with hget
            subst hget
            have hlt : c.toNat < parts.length := by
              have := List.getElem?_eq_some_iff.mp hpart
              exact this.1
            exact ⟨rest ++ [m], by simp [hlt, Partition.addMessage]⟩
          · exact ⟨rest, by rw [List.getElem?_set_ne hi]; exact hget⟩
        obtain ⟨rest2, hnew⟩ := hnew
        split
        · exact ⟨_, rest2, by simp [StdMap.find_set], by simp [hlen], hnew⟩
        · exact ⟨_, rest2, by simp [StdMap.find_set], by simp [hlen], hnew⟩
    · exact ⟨parts, rest, hf, hlen, hget⟩
  · exact ⟨parts, rest, by rw [(Broker.produceMessage_other b t topic m hne).1]; exact hf,
      hlen, hget⟩

theorem Broker.consumeMessage_frontIs (b : Broker) (t topic : StdString) (q : Int)
    (msg : Message) (count index : Nat) (hne : ¬ (t = topic ∧ q = (index : Int)))
    (h : b.frontIs topic count index msg) :
    (b.consumeMessage t q).1.frontIs topic count index msg := by
  obtain ⟨parts, rest, hf, hlen, hget⟩ := h
  by_cases ht : topic = t
  · subst ht
    unfold Broker.consumeMessage
    rw [StdMap.index_of_find b.topics topic [] parts hf]
    simp only
    split
    · rename_i hq
      split
      · exact ⟨parts, rest, hf, hlen, hget⟩
      · split
        · exact ⟨parts, rest, hf, hlen, hget⟩
        · have hi : q.toNat ≠ index := by
            intro e
            apply hne
            refine ⟨rfl, ?_⟩
            omega
          refine ⟨_, rest, by rw [StdMap.find_set, if_pos rfl], ?_, ?_⟩
          · simp [hlen]
          · rw [List.getElem?_set_ne hi]; exact hget
    · exact ⟨parts, rest, hf, hlen, hget⟩
  · exact ⟨parts, rest, by rw [Broker.consumeMessage_other b t topic q ht]; exact hf,
      hlen, hget⟩

theorem Server.step_frontIs (s : Server) (e : Event) (topic : StdString) (msg : Message)
    (count index : Nat) (hne : e ≠ .call (.consumeMessage topic (index : Int)))
    (h : s.broker.frontIs topic count index msg)
    (hq : ∀ w ∈ s.waiting, ¬ (w.topic = topic ∧ w.partition = (index : Int))) :
    (s.step e).1.broker.frontIs topic count index msg
    ∧ ∀ w ∈ (s.step e).1.waiting, ¬ (w.topic = topic ∧ w.partition = (index : Int)) := by
  cases e with
  | call c =>
    cases c with
    | topicExists t =>
      simp only [Server.step, Broker.call, reduceCtorEq, if_false]
      exact ⟨h, hq⟩
    | getPartitionCount t =>
      simp only [Server.step, Broker.call, reduceCtorEq, if_false]
      exact ⟨h, hq⟩
    | produceMessage t m =>
      have hb := (Server.step_call s (.produceMessage t m)).1
      rw [Broker.call_produceMessage] at hb
      refine ⟨by rw [hb]; exact Broker.produceMessage_frontIs _ _ _ _ _ _ _ h, ?_⟩
      intro w hw
      simp only [Server.step, Call.waiter, List.append_nil, ite_self] at hw
      exact hq w hw
    | consumeMessage t q =>
      have hb := (Server.step_call s (.consumeMessage t q)).1
      rw [(Broker.call_consumeMessage _ _ _).1] at hb
      have hne2 : ¬ (t = topic ∧ q = (index : Int)) := by
        rintro ⟨rfl, rfl⟩
        exact hne rfl
      refine ⟨by rw [hb]; exact Broker.consumeMessage_frontIs _ _ _ _ _ _ _ hne2 h, ?_⟩
      intro w hw
      simp only [Server.step, Call.waiter] at hw
      split at hw
      · simp only [List.mem_append, List.mem_singleton] at hw
        rcases hw with hw | rfl
        · exact hq w hw
        · exact hne2
      · exact hq w hw
  | wake w =>
    by_cases hw : w ∈ s.waiting
    · rcases hx : s.broker.consumeMessage w.topic w.partition with ⟨b2, r⟩
      have hf := Broker.consumeMessage_frontIs s.broker w.topic topic w.partition msg count
        index (hq w hw) h
      rw [hx] at hf
      cases r with
      | returned m =>
        simp only [Server.step, hw, if_true, hx]
        exact ⟨hf, fun v hv => hq v (List.mem_of_mem_erase hv)⟩
      | blocked =>
        simp only [Server.step, hw, if_true, hx]
        exact ⟨h, hq⟩
      | undefined =>
        simp only [Server.step, hw, if_true, hx]
        exact ⟨h, hq⟩
    · simp only [Server.step, hw, if_false]
      exact ⟨h, hq⟩

theorem Server.run_frontIs (topic : StdString) (msg : Message) (count index : Nat)
    (events : List Event) :
    ∀ s : Server, (∀ e ∈ events, e ≠ .call (.consumeMessage topic (index : Int))) →
      s.broker.frontIs topic count index msg →
      (∀ w ∈ s.waiting, ¬ (w.topic = topic ∧ w.partition = (index : Int))) →
      (s.run events).1.broker.frontIs topic count index msg := by
  induction events with
  | nil => intro s _ h _; exact h
  | cons e es ih =>
    intro s hne h hq
    obtain ⟨h2, hq2⟩ := Server.step_frontIs s e topic msg count index (hne e (by simp)) h hq
    rw [Server.run_event]
    split
    · exact h2
    · exact ih _ (fun e2 he2 => hne e2 (List.mem_cons_of_mem _ he2)) h2 hq2

/-! ## Partition: FIFO -/

theorem received_eq_take (topic : StdString) (index : Nat) (calls : List PartitionCall) :
    ∀ ps : Partitions, neverWaits topic index ps calls = true →
      received topic index ps calls
        = ((ps topic index).messages ++ added topic index calls).take
            (getCount topic index calls) := by
  induction calls with
  | nil => intro ps _; simp [received, getCount]
  | cons c cs ih =>
    intro ps h
    obtain ⟨t, i, op⟩ := c
    simp only [neverWaits, Bool.and_eq_true] at h
    obtain ⟨h1, h2⟩ := h
    have ih2 := ih _ h2
    cases op with
    | addMessage msg =>
      simp only [received, added, getCount, Partitions.step] at ih2 ⊢
      rw [ih2]
      by_cases hk : t = topic ∧ i = index
      · obtain ⟨rfl, rfl⟩ := hk
        simp [Partitions.update, Partition.addMessage]
      · have hk2 : ¬(topic = t ∧ index = i) := fun e => hk ⟨e.1.symm, e.2.symm⟩
        simp [Partitions.update, hk, hk2]
    | getMessage =>
      simp only [Partitions.step] at h1 h2 ih2
      simp only [received, added, getCount, Partitions.step]
      by_cases hk : t = topic ∧ i = index
      · rw [if_pos hk] at h1
        obtain ⟨rfl, rfl⟩ := hk
        cases hq : (ps t i).messages with
        | nil => simp [hq] at h1
        | cons m ms =>
          simp only [Partition.getMessage, hq] at ih2 ⊢
          rw [ih2]
          simp [Partitions.update, hq]
      · have hk2 : ¬(topic = t ∧ index = i) := fun e => hk ⟨e.1.symm, e.2.symm⟩
        rw [if_neg hk, if_neg hk]
        cases hq : (ps t i).messages with
        | nil =>
          simp only [Partition.getMessage, hq] at ih2 ⊢
          exact ih2
        | cons m ms =>
          simp only [Partition.getMessage, hq] at ih2 ⊢
          rw [ih2]
          simp [Partitions.update, hk2]

/-- C2: strict per-partition FIFO.  Over any sequence of `addMessage` and
`getMessage` calls on freshly constructed partitions in which each
`getMessage` on one partition finds its queue non-empty, the messages
returned by the `getMessage` calls on that partition are, in order, the first
messages passed to `addMessage` on it (the i-th returned is the i-th added),
whatever calls on other partitions or topics are interleaved. -/
theorem partition_fifo (topic : StdString) (index : Nat) (calls : List PartitionCall)
    (h : neverWaits topic index Partitions.fresh calls = true) :
    received topic index Partitions.fresh calls
      = (added topic index calls).take (getCount topic index calls) := by
  have := received_eq_take topic index calls Partitions.fresh h
  simpa [Partitions.fresh] using this

/-- C2 at a concrete interleaving of two partitions, one of which is read
while empty. -/
theorem partition_fifo_witness :
    neverWaits "topic1".toList 0 Partitions.fresh
        [⟨"topic1".toList, 0, .addMessage ⟨1, "a".toList⟩⟩,
         ⟨"topic2".toList, 1, .getMessage⟩,
         ⟨"topic2".toList, 1, .addMessage ⟨9, "z".toList⟩⟩,
         ⟨"topic1".toList, 0, .addMessage ⟨2, "b".toList⟩⟩,
         ⟨"topic1".toList, 0, .getMessage⟩,
         ⟨"topic2".toList, 1, .getMessage⟩,
         ⟨"topic1".toList, 0, .addMessage ⟨3, "c".toList⟩⟩,
         ⟨"topic1".toList, 0, .getMessage⟩] = true
    ∧ received "topic1".toList 0 Partitions.fresh
        [⟨"topic1".toList, 0, .addMessage ⟨1, "a".toList⟩⟩,
         ⟨"topic2".toList, 1, .getMessage⟩,
         ⟨"topic2".toList, 1, .addMessage ⟨9, "z".toList⟩⟩,
         ⟨"topic1".toList, 0, .addMessage ⟨2, "b".toList⟩⟩,
         ⟨"topic1".toList, 0, .getMessage⟩,
         ⟨"topic2".toList, 1, .getMessage⟩,
         ⟨"topic1".toList, 0, .addMessage ⟨3, "c".toList⟩⟩,
         ⟨"topic1".toList, 0, .getMessage⟩]
      = [⟨1, "a".toList⟩, ⟨2, "b".toList⟩] :=
  ⟨by decide, (partition_fifo _ _ _ (by decide)).trans (by decide)⟩

/-! ## Runs of calls -/

theorem produceReturns_run (topic : StdString) (N : Nat) (hN : (N : Int) ≤ INT_MAX)
    (calls : List Call) :
    ∀ (b : Broker) (c : Int) (parts : List Partition),
      StdMap.find b.topics topic = some parts → parts.length = N →
      StdMap.find b.roundRobin topic = some c → 0 ≤ c → c < N →
      produceReturns topic calls (b.run calls).2
        = (List.range (produceCount topic (calls.take (b.run calls).2.length))).map
            (fun k : Nat => Ret.int ((c + (k : Int)) % (N : Int))) := by
  induction calls with
  | nil => intro b c parts _ _ _ _ _; simp [Broker.run, produceReturns, produceCount]
  | cons cl cs ih =>
    intro b c parts ht hlen hrr h0 h1
    rw [Broker.run_cons]
    cases cl with
    | topicExists t =>
      simp only [Broker.call, Ret.bool.injEq, reduceCtorEq, if_false, produceReturns,
        List.length_cons, List.take_succ_cons, produceCount]
      exact ih b c parts ht hlen hrr h0 h1
    | getPartitionCount t =>
      simp only [Broker.call, reduceCtorEq, if_false, produceReturns,
        List.length_cons, List.take_succ_cons, produceCount]
      exact ih b c parts ht hlen hrr h0 h1
    | produceMessage t msg =>
      by_cases hne : t = topic
      · subst hne
        have hc := Broker.cursor_eq b t c hrr
        obtain ⟨part, _, hp⟩ := Broker.produceMessage_known b t msg parts ht
          (by rw [hc]; exact h0) (by rw [hc, hlen]; exact h1) (by rw [hlen]; exact hN)
        rw [hc, hlen] at hp
        have hN0 : (0 : Int) < N := by omega
        have ih2 := ih (b.produceMessage t msg).1 ((c + 1) % N)
          (parts.set c.toNat (part.addMessage msg))
          (by rw [hp]; simp [StdMap.find_set]) (by simp [hlen])
          (by rw [hp]; simp [StdMap.find_set])
          (Int.emod_nonneg _ (by omega)) (Int.emod_lt_of_pos _ hN0)
        simp only [Broker.call, hp, reduceCtorEq, if_false, produceReturns, if_true,
          List.length_cons, List.take_succ_cons, produceCount]
        simp only [hp] at ih2
        rw [ih2, List.range_succ_eq_map]
        simp only [List.map_cons, List.map_map, Nat.cast_zero, add_zero, List.cons.injEq,
          Ret.int.injEq]
        refine ⟨(Int.emod_eq_of_lt h0 h1).symm, ?_⟩
        apply List.map_congr_left
        intro a _
        simp only [Function.comp_apply, Nat.succ_eq_add_one, Nat.cast_add, Nat.cast_one,
          Int.emod_add_emod, Ret.int.injEq]
        congr 1
        omega
      · have hne2 : topic ≠ t := fun e => hne e.symm
        obtain ⟨f1, f2⟩ := Broker.produceMessage_other b t topic msg hne2
        have ih2 := ih (b.produceMessage t msg).1 c parts (by rw [f1]; exact ht) hlen
          (by rw [f2]; exact hrr) h0 h1
        rcases hcall : b.produceMessage t msg with ⟨b2, r⟩
        rw [hcall] at ih2
        cases r with
        | returned i =>
          simp only [Broker.call, hcall, reduceCtorEq, if_false, produceReturns, hne,
            List.length_cons, List.take_succ_cons, produceCount]
          exact ih2
        | blocked =>
          simp only [Broker.call, hcall, reduceCtorEq, if_false, produceReturns, hne,
            List.length_cons, List.take_succ_cons, produceCount]
          exact ih2
        | undefined =>
          simp [Broker.call, hcall, produceReturns, hne, produceCount]
    | consumeMessage t p =>
      obtain ⟨ps, f1, f2⟩ := Broker.consumeMessage_length b t topic p parts ht
      have f3 := Broker.consumeMessage_roundRobin b t p
      have ih2 := ih (b.consumeMessage t p).1 c ps f1 (by rw [f2]; exact hlen)
        (by rw [f3]; exact hrr) h0 h1
      rcases hcall : b.consumeMessage t p with ⟨b2, r⟩
      rw [hcall] at ih2
      cases r with
      | returned i =>
        simp only [Broker.call, hcall, reduceCtorEq, if_false, produceReturns,
          List.length_cons, List.take_succ_cons, produceCount]
        exact ih2
      | blocked =>
        simp only [Broker.call, hcall, reduceCtorEq, if_false, produceReturns,
          List.length_cons, List.take_succ_cons, produceCount]
        exact ih2
      | undefined =>
        simp [Broker.call, hcall, produceReturns, produceCount]

/-- C1: round-robin placement.  On a freshly constructed broker, for every
configured topic with `N` partitions and every sequence of calls on the
broker (produces to any topic, consumes, lookups), the `produceMessage` calls
on the topic return, in order, `0 mod N, 1 mod N, 2 mod N, ...`: the (k+1)-th
returns `k mod N`.  Every such call that is reached returns (the run ends
only at a call with undefined behaviour, which a produce on a configured
topic never is). -/
theorem round_robin_placement (topic : StdString) (parts : List Partition)
    (h : StdMap.find Broker.new.topics topic = some parts) (calls : List Call) :
    produceReturns topic calls (Broker.new.run calls).2
      = (List.range (produceCount topic (calls.take (Broker.new.run calls).2.length))).map
          (fun k : Nat => Ret.int ((k : Int) % (parts.length : Int))) := by
  obtain ⟨hcase, hrr⟩ := Broker.new_find topic parts h
  have hN : (parts.length : Int) ≤ INT_MAX := by
    unfold INT_MAX
    rcases hcase with ⟨_, h3⟩ | ⟨_, h3⟩ <;> omega
  have hpos : (0 : Int) < parts.length := by
    rcases hcase with ⟨_, h3⟩ | ⟨_, h3⟩ <;> omega
  have := produceReturns_run topic parts.length hN calls Broker.new 0 parts h rfl hrr
    (le_refl 0) hpos
  simpa using this

/-- C1 on `topic1` with produces to `topic2`, consumes and an unknown topic in between. -/
theorem round_robin_placement_witness :
    StdMap.find Broker.new.topics "topic1".toList = some [⟨[]⟩, ⟨[]⟩, ⟨[]⟩]
    ∧ produceReturns "topic1".toList
        [.produceMessage "topic1".toList ⟨1, "a".toList⟩,
         .produceMessage "topic2".toList ⟨2, "b".toList⟩,
         .produceMessage "topic1".toList ⟨3, "c".toList⟩,
         .consumeMessage "topic1".toList 0,
         .produceMessage "nowhere".toList ⟨4, "d".toList⟩,
         .produceMessage "topic1".toList ⟨5, "e".toList⟩,
         .produceMessage "topic1".toList ⟨6, "f".toList⟩]
        (Broker.new.run
          [.produceMessage "topic1".toList ⟨1, "a".toList⟩,
           .produceMessage "topic2".toList ⟨2, "b".toList⟩,
           .produceMessage "topic1".toList ⟨3, "c".toList⟩,
           .consumeMessage "topic1".toList 0,
           .produceMessage "nowhere".toList ⟨4, "d".toList⟩,
           .produceMessage "topic1".toList ⟨5, "e".toList⟩,
           .produceMessage "topic1".toList ⟨6, "f".toList⟩]).2
      = [.int 0, .int 1, .int 2, .int 0] :=
  ⟨by decide,
    (round_robin_placement "topic1".toList [⟨[]⟩, ⟨[]⟩, ⟨[]⟩] (by decide) _).trans (by decide)⟩

/-! ## Fixed topology -/

/-- C10, as stated, fails: `consumeMessage` with a name that is not a topic
runs `topics[topic]`, which inserts the name with an empty vector of
partitions (the indexing of that vector is then undefined).  The name is not
a topic of the fresh broker and is one afterwards. -/
theorem topology_fixed_counterexample :
    (Broker.new.run [.consumeMessage "ghost".toList 0]).1.topology
      = [("ghost".toList, 0), ("topic1".toList, 3), ("topic2".toList, 2)]
    ∧ Broker.new.topicExists "ghost".toList = false
    ∧ (Broker.new.run [.consumeMessage "ghost".toList 0]).1.topicExists "ghost".toList
        = true := by
  decide

/-- C10, amended: over every sequence of `topicExists`, `getPartitionCount`,
`produceMessage` and `consumeMessage` calls with arbitrary topic names and
partition indices, except that `consumeMessage` is only called with the name
of a topic (as `handleClient` does), the topic names and the partition count
of each stay as set at construction (`topic1` with 3 partitions, `topic2`
with 2), and every name unknown at construction stays unknown, with
`getPartitionCount` 0. -/
theorem topology_fixed (calls : List Call)
    (h : ∀ t p, Call.consumeMessage t p ∈ calls → Broker.new.topicExists t = true) :
    (Broker.new.run calls).1.topology = [("topic1".toList, 3), ("topic2".toList, 2)]
    ∧ ∀ t, Broker.new.topicExists t = false →
        (Broker.new.run calls).1.topicExists t = false
        ∧ (Broker.new.run calls).1.getPartitionCount t = 0 := by
  have ht := Broker.run_topology calls Broker.new h
  refine ⟨ht.trans (by decide), fun t hu => ?_⟩
  rw [Broker.topicExists_of_topology _ _ ht, Broker.getPartitionCount_of_topology _ _ ht]
  refine ⟨hu, ?_⟩
  unfold Broker.topicExists at hu
  unfold Broker.getPartitionCount
  cases hf : StdMap.find Broker.new.topics t with
  | none => rfl
  | some parts => simp [hf] at hu

/-- C10, amended, on a run with unknown names and an out-of-range index. -/
theorem topology_fixed_witness :
    (∀ t p, Call.consumeMessage t p ∈
        [Call.produceMessage "topic1".toList ⟨1, "a".toList⟩,
         Call.produceMessage "ghost".toList ⟨2, "b".toList⟩,
         Call.getPartitionCount "ghost".toList,
         Call.consumeMessage "topic1".toList 0,
         Call.consumeMessage "topic2".toList 1,
         Call.consumeMessage "topic2".toList 5] →
      Broker.new.topicExists t = true)
    ∧ (Broker.new.run
        [Call.produceMessage "topic1".toList ⟨1, "a".toList⟩,
         Call.produceMessage "ghost".toList ⟨2, "b".toList⟩,
         Call.getPartitionCount "ghost".toList,
         Call.consumeMessage "topic1".toList 0,
         Call.consumeMessage "topic2".toList 1,
         Call.consumeMessage "topic2".toList 5]).1.topology
      = [("topic1".toList, 3), ("topic2".toList, 2)] :=
  have hq : ∀ t p, Call.consumeMessage t p ∈
        [Call.produceMessage "topic1".toList ⟨1, "a".toList⟩,
         Call.produceMessage "ghost".toList ⟨2, "b".toList⟩,
         Call.getPartitionCount "ghost".toList,
         Call.consumeMessage "topic1".toList 0,
         Call.consumeMessage "topic2".toList 1,
         Call.consumeMessage "topic2".toList 5] →
      Broker.new.topicExists t = true := by
    intro t p hm
    simp only [List.mem_cons, reduceCtorEq, Call.consumeMessage.injEq, false_or,
      List.mem_singleton, List.not_mem_nil, or_false] at hm
    rcases hm with ⟨rfl, _⟩ | ⟨rfl, _⟩ | ⟨rfl, _⟩ <;> decide
  ⟨hq, (topology_fixed _ hq).1⟩

/-! ## No loss, no duplication -/

theorem Partition.drain_of_le (fuel : Nat) :
    ∀ p : Partition, p.messages.length ≤ fuel → p.drain fuel = (p.messages, ⟨[]⟩) := by
  induction fuel with
  | zero =>
    intro p h
    obtain ⟨ms⟩ := p
    have : ms = [] := List.length_eq_zero.mp (Nat.le_zero.mp h)
    subst this
    rfl
  | succ n ih =>
    intro p h
    obtain ⟨ms⟩ := p
    cases ms with
    | nil => rfl
    | cons m rest =>
      have h2 : rest.length ≤ n := by simpa using h
      simp [Partition.drain, Partition.getMessage, ih ⟨rest⟩ h2]

theorem join_messages_set (msg : Message) (parts : List Partition) :
    ∀ (i : Nat) (part : Partition), parts[i]? = some part →
      ((parts.set i (part.addMessage msg)).map Partition.messages).flatten.Perm
        (msg :: (parts.map Partition.messages).flatten) := by
  induction parts with
  | nil => intro i part h; simp at h
  | cons p ps ih =>
    intro i part h
    cases i with
    | zero =>
      simp only [List.getElem?_cons_zero, Option.some.injEq] at h
      subst h
      simp only [List.set_cons_zero, List.map_cons, List.flatten_cons, Partition.addMessage]
      rw [List.append_assoc]
      exact (List.perm_middle).trans (List.Perm.refl _)
    | succ j =>
      simp only [List.getElem?_cons_succ] at h
      simp only [List.set_cons_succ, List.map_cons, List.flatten_cons]
      exact ((ih j part h).append_left p.messages).trans List.perm_middle

theorem join_drain (fuel : Nat) (parts : List Partition)
    (h : ∀ p ∈ parts, p.messages.length ≤ fuel) :
    (parts.map (fun p => (p.drain fuel).1)).flatten = (parts.map Partition.messages).flatten
    ∧ parts.map (fun p => (p.drain fuel).2) = List.replicate parts.length ⟨[]⟩ := by
  induction parts with
  | nil => simp
  | cons p ps ih =>
    have hp := Partition.drain_of_le fuel p (h p (by simp))
    obtain ⟨i1, i2⟩ := ih (fun q hq => h q (List.mem_cons_of_mem _ hq))
    simp [hp, i1, i2, List.replicate_succ]

theorem length_le_join (parts : List Partition) (p : Partition) (h : p ∈ parts) :
    p.messages.length ≤ (parts.map Partition.messages).flatten.length := by
  induction parts with
  | nil => simp at h
  | cons q qs ih =>
    simp only [List.mem_cons] at h
    simp only [List.map_cons, List.flatten_cons, List.length_append]
    rcases h with rfl | h
    · omega
    · have := ih h
      omega

theorem join_of_empty (parts : List Partition) (h : ∀ p ∈ parts, p.messages = []) :
    (parts.map Partition.messages).flatten = [] := by
  induction parts with
  | nil => rfl
  | cons q qs ih =>
    simp [h q (by simp), ih (fun p hp => h p (List.mem_cons_of_mem _ hp))]

theorem Server.step_wake_other (s : Server) (w : Waiter) (topic : StdString)
    (hidle : ∀ v ∈ s.waiting, v.topic ≠ topic) :
    (s.step (.wake w)).2 ≠ .undefined
    ∧ StdMap.find (s.step (.wake w)).1.broker.topics topic = StdMap.find s.broker.topics topic
    ∧ (s.step (.wake w)).1.broker.roundRobin = s.broker.roundRobin
    ∧ ∀ v ∈ (s.step (.wake w)).1.waiting, v.topic ≠ topic := by
  by_cases hw : w ∈ s.waiting
  · have h1 := Broker.consumeMessage_other s.broker w.topic topic w.partition
      (fun e => hidle w hw e.symm)
    have h2 := Broker.consumeMessage_roundRobin s.broker w.topic w.partition
    rcases hx : s.broker.consumeMessage w.topic w.partition with ⟨b2, r⟩
    rw [hx] at h1 h2
    cases r with
    | returned m =>
      simp only [Server.step, hw, if_true, hx]
      exact ⟨by simp, h1, h2, fun v hv => hidle v (List.mem_of_mem_erase hv)⟩
    | blocked =>
      simp only [Server.step, hw, if_true, hx]
      exact ⟨by simp, trivial, trivial, hidle⟩
    | undefined =>
      simp only [Server.step, hw, if_true, hx]
      exact ⟨by simp, trivial, trivial, hidle⟩
  · simp only [Server.step, hw, if_false]
    exact ⟨by simp, trivial, trivial, hidle⟩

theorem Server.run_produce_spec (topic : StdString) (N : Nat) (hN : (N : Int) ≤ INT_MAX)
    (events : List Event) :
    ∀ (s : Server) (order : List Message) (parts : List Partition),
      events.filterMap Event.call? = order.map (Call.produceMessage topic) →
      StdMap.find s.broker.topics topic = some parts → parts.length = N →
      0 ≤ s.broker.cursor topic → s.broker.cursor topic < N →
      (∀ w ∈ s.waiting, w.topic ≠ topic) →
      ∃ parts2, StdMap.find (s.run events).1.broker.topics topic = some parts2
        ∧ parts2.length = N
        ∧ (parts2.map Partition.messages).flatten.Perm
            ((parts.map Partition.messages).flatten ++ order)
        ∧ Ret.undefined ∉ (s.run events).2 := by
  induction events with
  | nil =>
    intro s order parts hev h hlen _ _ _
    have : order = [] := by
      cases order with
      | nil => rfl
      | cons m ms => simp at hev
    subst this
    exact ⟨parts, h, hlen, by simp, by simp [Server.run]⟩
  | cons e es ih =>
    intro s order parts hev h hlen h0 h1 hidle
    cases e with
    | call c =>
      cases order with
      | nil => simp [Event.call?] at hev
      | cons msg rest =>
        simp only [List.filterMap_cons, Event.call?, List.map_cons, List.cons.injEq] at hev
        obtain ⟨rfl, hev⟩ := hev
        obtain ⟨part, hpart, hp⟩ := Broker.produceMessage_known s.broker topic msg parts h h0
          (by rw [hlen]; exact h1) (by rw [hlen]; exact hN)
        rw [hlen] at hp
        have hN0 : (0 : Int) < N := by omega
        have hstep : s.step (.call (.produceMessage topic msg))
            = (⟨(s.broker.produceMessage topic msg).1, s.waiting⟩,
                .int (s.broker.cursor topic)) := by
          simp [Server.step, Broker.call, hp]
        have hcur : (s.broker.produceMessage topic msg).1.cursor topic
            = (s.broker.cursor topic + 1) % N := by
          apply Broker.cursor_eq
          rw [hp]
          simp [StdMap.find_set]
        obtain ⟨parts2, g1, g2, g3, g4⟩ := ih ⟨(s.broker.produceMessage topic msg).1, s.waiting⟩
          rest (parts.set (s.broker.cursor topic).toNat (part.addMessage msg)) hev
          (by rw [hp]; simp [StdMap.find_set]) (by simp [hlen])
          (by rw [hcur]; exact Int.emod_nonneg _ (by omega))
          (by rw [hcur]; exact Int.emod_lt_of_pos _ hN0) hidle
        rw [Server.run_event, hstep]
        simp only [reduceCtorEq, if_false]
        refine ⟨parts2, g1, g2, ?_, by simpa using g4⟩
        refine g3.trans ?_
        refine ((join_messages_set msg parts _ part hpart).append_right rest).trans ?_
        simp only [List.cons_append]
        exact List.perm_middle.symm
    | wake w =>
      simp only [List.filterMap_cons, Event.call?] at hev
      obtain ⟨k1, k2, k3, k4⟩ := Server.step_wake_other s w topic hidle
      have hc : (s.step (.wake w)).1.broker.cursor topic = s.broker.cursor topic :=
        Broker.cursor_congr _ _ topic (by rw [k3])
      obtain ⟨parts2, g1, g2, g3, g4⟩ := ih (s.step (.wake w)).1 order parts hev
        (by rw [k2]; exact h) hlen (by rw [hc]; exact h0) (by rw [hc]; exact h1) k4
      rw [Server.run_event, if_neg k1]
      exact ⟨parts2, g1, g2, g3, by simp only [List.mem_cons, not_or]; exact ⟨Ne.symm k1, g4⟩⟩

/-- C4 as stated fails when a consumer is already waiting on a partition of
the topic.  On the started server a `consumeMessage("topic1", 0)` finds the
queue empty and waits; all partitions of `topic1` are empty.  Four producers
then send one message each; the waiting consumer wakes after the first and
takes it, and draining the three partitions gives three messages, not four. -/
theorem no_loss_no_duplication_counterexample :
    (Server.new.run [.call (.consumeMessage "topic1".toList 0)]).1
      = ⟨Broker.new, [⟨"topic1".toList, 0⟩]⟩
    ∧ ((Server.mk Broker.new [⟨"topic1".toList, 0⟩]).run
        [.call (.produceMessage "topic1".toList ⟨1, "a".toList⟩),
         .wake ⟨"topic1".toList, 0⟩,
         .call (.produceMessage "topic1".toList ⟨2, "b".toList⟩),
         .call (.produceMessage "topic1".toList ⟨3, "c".toList⟩),
         .call (.produceMessage "topic1".toList ⟨4, "d".toList⟩)]).2
      = [.int 0, .message ⟨1, "a".toList⟩, .int 1, .int 2, .int 0]
    ∧ (((Server.mk Broker.new [⟨"topic1".toList, 0⟩]).run
        [.call (.produceMessage "topic1".toList ⟨1, "a".toList⟩),
         .wake ⟨"topic1".toList, 0⟩,
         .call (.produceMessage "topic1".toList ⟨2, "b".toList⟩),
         .call (.produceMessage "topic1".toList ⟨3, "c".toList⟩),
         .call (.produceMessage "topic1".toList ⟨4, "d".toList⟩)]).1.broker.drainTopic
          4 "topic1".toList).1
      = [⟨4, "d".toList⟩, ⟨2, "b".toList⟩, ⟨3, "c".toList⟩] := by
  decide

/-- C4, amended: no loss, no duplication.  In every state of the running
server, for a topic whose partitions are all empty and have no consumer
waiting on them, for every `K` messages and every order `order` in which the
`K` calls `produceMessage(topic, msg)` take the registry lock, with whatever
wake-ups of waiting consumers in between, no call has undefined behaviour, and
draining all partitions of the topic afterwards (`getMessage` until each is
empty) gives exactly `K` messages whose multiset is that of the produced
messages, and leaves every partition empty. -/
theorem no_loss_no_duplication (s : Server) (topic : StdString) (parts : List Partition)
    (hs : s.reachable) (h : StdMap.find s.broker.topics topic = some parts)
    (hempty : ∀ p ∈ parts, p.messages = [])
    (hidle : ∀ w ∈ s.waiting, w.topic ≠ topic)
    (msgs order : List Message) (hperm : order.Perm msgs)
    (events : List Event)
    (hevents : events.filterMap Event.call? = order.map (Call.produceMessage topic))
    (fuel : Nat) (hfuel : msgs.length ≤ fuel) :
    (((s.run events).1.broker.drainTopic fuel topic).1.length = msgs.length
      ∧ (((s.run events).1.broker.drainTopic fuel topic).1 : Multiset Message)
          = (msgs : Multiset Message)
      ∧ ((s.run events).1.broker.drainTopic fuel topic).2
          = List.replicate parts.length ⟨[]⟩)
    ∧ Ret.undefined ∉ (s.run events).2 := by
  have hcursor := (Server.running_topic s hs topic parts h).2.2.2
  simp only [Broker.cursorInRange, h, Bool.and_eq_true, decide_eq_true_eq] at hcursor
  obtain ⟨⟨c0, c1⟩, c2⟩ := hcursor
  obtain ⟨parts2, g1, g2, g3, g4⟩ :=
    Server.run_produce_spec topic parts.length c2 events s order parts hevents h rfl c0 c1 hidle
  rw [join_of_empty parts hempty, List.nil_append] at g3
  have hlen : (parts2.map Partition.messages).flatten.length = msgs.length :=
    (g3.trans hperm).length_eq
  have hd := join_drain fuel parts2
    (fun p hp => (length_le_join parts2 p hp).trans (by rw [hlen]; exact hfuel))
  simp only [Broker.drainTopic, g1, hd.1, hd.2, g2]
  exact ⟨⟨hlen, Multiset.coe_eq_coe.mpr (g3.trans hperm), trivial⟩, g4⟩

/-- C4, amended, on a server where a consumer waits on `topic2`: four
producers on `topic1`, taking the lock in another order than the messages are
listed, and a wake-up of the waiting consumer in between. -/
theorem no_loss_no_duplication_witness :
    ((((Server.mk Broker.new [⟨"topic2".toList, 1⟩]).run
          [.call (.produceMessage "topic1".toList ⟨3, "c".toList⟩),
           .call (.produceMessage "topic1".toList ⟨1, "a".toList⟩),
           .wake ⟨"topic2".toList, 1⟩,
           .call (.produceMessage "topic1".toList ⟨4, "d".toList⟩),
           .call (.produceMessage "topic1".toList ⟨2, "b".toList⟩)]).1.broker.drainTopic
            4 "topic1".toList).1.length = 4
      ∧ (((((Server.mk Broker.new [⟨"topic2".toList, 1⟩]).run
          [.call (.produceMessage "topic1".toList ⟨3, "c".toList⟩),
           .call (.produceMessage "topic1".toList ⟨1, "a".toList⟩),
           .wake ⟨"topic2".toList, 1⟩,
           .call (.produceMessage "topic1".toList ⟨4, "d".toList⟩),
           .call (.produceMessage "topic1".toList ⟨2, "b".toList⟩)]).1.broker.drainTopic
            4 "topic1".toList).1 : List Message) : Multiset Message)
          = (([⟨1, "a".toList⟩, ⟨2, "b".toList⟩, ⟨3, "c".toList⟩, ⟨4, "d".toList⟩] :
              List Message) : Multiset Message)
      ∧ (((Server.mk Broker.new [⟨"topic2".toList, 1⟩]).run
          [.call (.produceMessage "topic1".toList ⟨3, "c".toList⟩),
           .call (.produceMessage "topic1".toList ⟨1, "a".toList⟩),
           .wake ⟨"topic2".toList, 1⟩,
           .call (.produceMessage "topic1".toList ⟨4, "d".toList⟩),
           .call (.produceMessage "topic1".toList ⟨2, "b".toList⟩)]).1.broker.drainTopic
            4 "topic1".toList).2 = List.replicate 3 ⟨[]⟩)
    ∧ Ret.undefined ∉ ((Server.mk Broker.new [⟨"topic2".toList, 1⟩]).run
          [.call (.produceMessage "topic1".toList ⟨3, "c".toList⟩),
           .call (.produceMessage "topic1".toList ⟨1, "a".toList⟩),
           .wake ⟨"topic2".toList, 1⟩,
           .call (.produceMessage "topic1".toList ⟨4, "d".toList⟩),
           .call (.produceMessage "topic1".toList ⟨2, "b".toList⟩)]).2 :=
  no_loss_no_duplication ⟨Broker.new, [⟨"topic2".toList, 1⟩]⟩ "topic1".toList
    [⟨[]⟩, ⟨[]⟩, ⟨[]⟩] ⟨[.call (.consumeMessage "topic2".toList 1)], by decide, by decide⟩
    (by decide) (by decide) (by decide)
    [⟨1, "a".toList⟩, ⟨2, "b".toList⟩, ⟨3, "c".toList⟩, ⟨4, "d".toList⟩]
    [⟨3, "c".toList⟩, ⟨1, "a".toList⟩, ⟨4, "d".toList⟩, ⟨2, "b".toList⟩]
    (by decide) _ (by decide) 4 (by decide)

/-! ## Lemmas on the handler -/

theorem take_length_pos (incoming : StdString) (hne : incoming ≠ []) :
    ¬ (incoming.take (BUFFER_SIZE - 1)).length ≤ 0 := by
  cases incoming with
  | nil => exact absurd rfl hne
  | cons x xs => simp [BUFFER_SIZE]

theorem parseProduce_topic (s : IStringStream) (u : Int) :
    (parseProduce s u).1 = (s.extractString []).2 := rfl

theorem parseConsume_topic (s : IStringStream) (u : Int) :
    (parseConsume s u).1 = (s.extractString []).2 := rfl

theorem handleRequest_other (b : Broker) (u : Int) (incoming : StdString)
    (hne : incoming ≠ [])
    (h1 : firstToken (requestOf incoming) ≠ "PRODUCE".toList)
    (h2 : firstToken (requestOf incoming) ≠ "CONSUME".toList) :
    handleRequest b u incoming = ⟨b, .wrote "ERROR: Unknown command\n".toList, []⟩ := by
  have hc := (IStringStream.extractString_tokens (requestOf incoming)).1
  rcases hx : (IStringStream.ofString (requestOf incoming)).extractString [] with ⟨s1, cmd⟩
  rw [hx] at hc
  simp only at hc
  subst hc
  unfold handleRequest
  rw [if_neg (take_length_pos incoming hne), hx]
  simp only
  rw [if_neg h1, if_neg h2]

theorem handleRequest_produce (b : Broker) (u : Int) (incoming : StdString)
    (hne : incoming ≠ [])
    (h1 : firstToken (requestOf incoming) = "PRODUCE".toList)
    (topic : StdString) (msg : Message)
    (hp : parseProduce ((IStringStream.ofString (requestOf incoming)).extractString []).1 u
      = (topic, msg))
    (b2 : Broker) (index : Int) (hr : b.produceMessage topic msg = (b2, .returned index)) :
    handleRequest b u incoming
      = if index < 0 then
          ⟨b2, .wrote "ERROR: Topic not found\n".toList, [.produceMessage topic msg]⟩
        else
          ⟨b2, .wrote ("Message produced to partition ".toList ++ to_string index
            ++ "\n".toList), [.produceMessage topic msg]⟩ := by
  have hc := (IStringStream.extractString_tokens (requestOf incoming)).1
  rcases hx : (IStringStream.ofString (requestOf incoming)).extractString [] with ⟨s1, cmd⟩
  rw [hx] at hc hp
  simp only at hc hp
  subst hc
  unfold handleRequest
  rw [if_neg (take_length_pos incoming hne), hx]
  simp only
  rw [if_pos h1, hp]
  simp only [hr]

theorem handleRequest_consume (b : Broker) (u : Int) (incoming : StdString)
    (hne : incoming ≠ [])
    (h1 : firstToken (requestOf incoming) = "CONSUME".toList)
    (topic : StdString) (partition : Int)
    (hp : parseConsume ((IStringStream.ofString (requestOf incoming)).extractString []).1 u
      = (topic, partition)) :
    handleRequest b u incoming
      = if !b.topicExists topic then
          ⟨b, .wrote "ERROR: Topic not found\n".toList, [.topicExists topic]⟩
        else if partition < 0 ∨ partition ≥ b.getPartitionCount topic then
          ⟨b, .wrote "ERROR: Invalid partition index\n".toList,
            .topicExists topic :: (if partition < 0 then [] else [.getPartitionCount topic])⟩
        else
          match b.consumeMessage topic partition with
          | (b2, .returned msg) =>
            ⟨b2, .wrote ("Consumed: ".toList ++ to_string msg.id ++ " ".toList ++ msg.content
              ++ "\n".toList),
              [.topicExists topic, .getPartitionCount topic, .consumeMessage topic partition]⟩
          | (b2, .blocked) =>
            ⟨b2, .blocked,
              [.topicExists topic, .getPartitionCount topic, .consumeMessage topic partition]⟩
          | (b2, .undefined) =>
            ⟨b2, .undefined,
              [.topicExists topic, .getPartitionCount topic, .consumeMessage topic partition]⟩ := by
  have hc := (IStringStream.extractString_tokens (requestOf incoming)).1
  rcases hx : (IStringStream.ofString (requestOf incoming)).extractString [] with ⟨s1, cmd⟩
  rw [hx] at hc hp
  simp only at hc hp
  subst hc
  unfold handleRequest
  rw [if_neg (take_length_pos incoming hne), hx]
  simp only
  have hne2 : firstToken (requestOf incoming) ≠ "PRODUCE".toList := by
    rw [h1]; decide
  rw [if_neg hne2, if_pos h1, hp]

theorem parse_arguments (cmd topic idTok rest : StdString) (n u : Int)
    (hcmd : isToken cmd) (htopic : isToken topic) (hid : isIntToken idTok n)
    (hmin : INT_MIN ≤ n) (hmax : n ≤ INT_MAX) (hrest : notStartingWith isdigit rest) :
    firstToken (cmd ++ ' ' :: (topic ++ ' ' :: (idTok ++ rest))) = cmd
    ∧ parseConsume ((IStringStream.ofString
          (cmd ++ ' ' :: (topic ++ ' ' :: (idTok ++ rest)))).extractString []).1 u
        = (topic, n)
    ∧ parseProduce ((IStringStream.ofString
          (cmd ++ ' ' :: (topic ++ ' ' :: (idTok ++ rest)))).extractString []).1 u
        = (topic, ⟨n, dropOneSpace (rest.takeWhile (fun x => x != '\n'))⟩) := by
  have hsp : notStartingWith (fun c => !isspace c) (' ' :: (topic ++ ' ' :: (idTok ++ rest))) := by
    intro c hc
    simp only [List.head?_cons, Option.some.injEq] at hc
    rw [← hc]; decide
  have hsp2 : notStartingWith (fun c => !isspace c) (' ' :: (idTok ++ rest)) := by
    intro c hc
    simp only [List.head?_cons, Option.some.injEq] at hc
    rw [← hc]; decide
  obtain ⟨a1, a2, a3⟩ := firstToken_append [] cmd _ (by simp) hcmd hsp
  simp only [List.nil_append] at a1 a2 a3
  have hne1 : (cmd ++ ' ' :: (topic ++ ' ' :: (idTok ++ rest))).dropWhile isspace ≠ [] := by
    rw [a3]
    obtain ⟨x, xs, rfl⟩ := List.exists_cons_of_ne_nil hcmd.1
    simp
  have e1 := IStringStream.extractString_good
    (IStringStream.ofString (cmd ++ ' ' :: (topic ++ ' ' :: (idTok ++ rest)))) [] rfl hne1
  simp only [IStringStream.ofString, a1, a2, List.isEmpty_cons] at e1
  obtain ⟨b1, b2, b3⟩ := firstToken_append [' '] topic (' ' :: (idTok ++ rest))
    (by decide) htopic hsp2
  simp only [List.singleton_append, List.cons_append, List.nil_append] at b1 b2 b3
  have hne2 : (' ' :: (topic ++ ' ' :: (idTok ++ rest))).dropWhile isspace ≠ [] := by
    rw [b3]
    obtain ⟨x, xs, rfl⟩ := List.exists_cons_of_ne_nil htopic.1
    simp
  have e2 := IStringStream.extractString_good
    ⟨' ' :: (topic ++ ' ' :: (idTok ++ rest)), false, false⟩ [] rfl hne2
  simp only [b1, b2, List.isEmpty_cons] at e2
  have e3 := IStringStream.extractInt_token ⟨' ' :: (idTok ++ rest), false, false⟩ u n
    [' '] idTok rest rfl (by simp) (by decide) hid hmin hmax hrest
  have e4 := IStringStream.getline_after rest
  refine ⟨a1, ?_, ?_⟩
  · simp only [IStringStream.ofString, e1, parseConsume, e2, e3]
  · simp only [IStringStream.ofString, e1, parseProduce, e2, e3]
    rcases hg : (⟨rest, rest.isEmpty, false⟩ : IStringStream).getline [] with ⟨s4, line⟩
    rw [hg] at e4
    simp only at e4
    subst e4
    simp only [Prod.mk.injEq, Message.mk.injEq, true_and]
    unfold dropOneSpace
    cases List.takeWhile (fun x => x != '\n') rest with
    | nil => simp
    | cons c cs =>
      by_cases hc : c = ' '
      · simp [hc]
      · simp [hc]

theorem isToken_PRODUCE : isToken "PRODUCE".toList := ⟨by decide, by decide⟩

theorem isToken_CONSUME : isToken "CONSUME".toList := ⟨by decide, by decide⟩

theorem to_string_ne_NUL (n : Int) : ∀ c ∈ to_string n, c ≠ NUL := by
  obtain ⟨ds, _, hds, hcase⟩ := to_string_isIntToken n
  have hd : ∀ c ∈ ds, c ≠ NUL := by
    intro c hc e
    have := hds c hc
    rw [e] at this
    revert this
    decide
  intro c hc
  rcases hcase with ⟨e, _⟩ | ⟨e, _⟩ | ⟨e, _⟩ <;> rw [e] at hc
  · exact hd c hc
  · simp only [List.mem_cons] at hc
    rcases hc with rfl | hc
    · decide
    · exact hd c hc
  · simp only [List.mem_cons] at hc
    rcases hc with rfl | hc
    · decide
    · exact hd c hc

/-! ## Unknown command -/

/-- C8: unknown command.  For every read that returns at least one byte and
whose request has a first whitespace-delimited token that is not exactly
`PRODUCE` or `CONSUME` (no token at all included), the handler makes no call
on the broker, leaves it unchanged, writes `ERROR: Unknown command`, and the
loop goes on with the next read of the connection. -/
theorem unknown_command (b : Broker) (u : Int) (incoming : StdString)
    (more : List (Int × StdString)) (hne : incoming ≠ [])
    (h1 : firstToken (requestOf incoming) ≠ "PRODUCE".toList)
    (h2 : firstToken (requestOf incoming) ≠ "CONSUME".toList) :
    handleRequest b u incoming = ⟨b, .wrote "ERROR: Unknown command\n".toList, []⟩
    ∧ handleClient b ((u, incoming) :: more)
        = ((handleClient b more).1,
            .wrote "ERROR: Unknown command\n".toList :: (handleClient b more).2) := by
  have h := handleRequest_other b u incoming hne h1 h2
  refine ⟨h, ?_⟩
  rw [handleClient, h]

/-- C8 on `FOO bar baz`, followed by a `PRODUCE` on the same connection. -/
theorem unknown_command_witness :
    "FOO bar baz".toList ≠ []
    ∧ firstToken (requestOf "FOO bar baz".toList) ≠ "PRODUCE".toList
    ∧ firstToken (requestOf "FOO bar baz".toList) ≠ "CONSUME".toList
    ∧ (handleClient Broker.new [(0, "FOO bar baz".toList), (0, "PRODUCE topic1 1 x".toList)]).2
        = [.wrote "ERROR: Unknown command\n".toList,
           .wrote "Message produced to partition 0\n".toList, .closed] :=
  ⟨by decide, by decide, by decide,
    (congrArg Prod.snd (unknown_command Broker.new 0 "FOO bar baz".toList
      [(0, "PRODUCE topic1 1 x".toList)] (by decide) (by decide) (by decide)).2).trans
      (by decide)⟩

/-! ## CONSUME: unknown topic, invalid partition -/

/-- C5: `CONSUME` on an unknown topic.  For every read that returns at least
one byte and whose request has `CONSUME` as first token and, as second token
(empty when missing), a name that is not a topic, whatever follows it (a
valid partition, one out of range, or nothing), the handler writes
`ERROR: Topic not found`, calls nothing but `topicExists` (so neither
`consumeMessage` nor `getMessage`), and leaves the broker unchanged. -/
theorem consume_unknown_topic (b : Broker) (u : Int) (incoming : StdString)
    (hne : incoming ≠ [])
    (h1 : firstToken (requestOf incoming) = "CONSUME".toList)
    (h2 : StdMap.find b.topics (secondToken (requestOf incoming)) = none) :
    handleRequest b u incoming
      = ⟨b, .wrote "ERROR: Topic not found\n".toList,
          [.topicExists (secondToken (requestOf incoming))]⟩ := by
  have ht := (IStringStream.extractString_tokens (requestOf incoming)).2
  rw [← parseConsume_topic _ u] at ht
  have hp : parseConsume
      ((IStringStream.ofString (requestOf incoming)).extractString []).1 u
      = (secondToken (requestOf incoming),
          (parseConsume
            ((IStringStream.ofString (requestOf incoming)).extractString []).1 u).2) := by
    rw [← ht]
  rw [handleRequest_consume b u incoming hne h1 _ _ hp]
  simp [Broker.topicExists, h2]

/-- C5 on `CONSUME ghost_topic 0`. -/
theorem consume_unknown_topic_witness :
    "CONSUME ghost_topic 0".toList ≠ []
    ∧ firstToken (requestOf "CONSUME ghost_topic 0".toList) = "CONSUME".toList
    ∧ StdMap.find Broker.new.topics (secondToken (requestOf "CONSUME ghost_topic 0".toList))
        = none
    ∧ handleRequest Broker.new 0 "CONSUME ghost_topic 0".toList
        = ⟨Broker.new, .wrote "ERROR: Topic not found\n".toList,
            [.topicExists "ghost_topic".toList]⟩ :=
  ⟨by decide, by decide, by decide,
    (consume_unknown_topic Broker.new 0 "CONSUME ghost_topic 0".toList (by decide)
      (by decide) (by decide)).trans (by decide)⟩

/-- `CONSUME` with a partition index out of range, for a topic whose name is
a token: the general form of `consume_invalid_partition`. -/
theorem consume_invalid_partition_of_token (b : Broker) (u : Int) (topic : StdString)
    (parts : List Partition) (p : Int)
    (htopic : isToken topic) (hfind : StdMap.find b.topics topic = some parts)
    (hmin : INT_MIN ≤ p) (hmax : p ≤ INT_MAX) (hrange : p < 0 ∨ p ≥ parts.length)
    (hnul : ∀ c ∈ topic, c ≠ NUL)
    (hfit : ("CONSUME ".toList ++ topic ++ " ".toList ++ to_string p).length
      ≤ BUFFER_SIZE - 1) :
    handleRequest b u ("CONSUME ".toList ++ topic ++ " ".toList ++ to_string p)
      = ⟨b, .wrote "ERROR: Invalid partition index\n".toList,
          .topicExists topic :: (if p < 0 then [] else [.getPartitionCount topic])⟩ := by
  have hform : "CONSUME ".toList ++ topic ++ " ".toList ++ to_string p
      = "CONSUME".toList ++ ' ' :: (topic ++ ' ' :: (to_string p ++ [])) := by
    have e1 : "CONSUME ".toList = "CONSUME".toList ++ [' '] := by decide
    have e2 : " ".toList = [' '] := by decide
    rw [e1, e2]
    simp only [List.append_assoc, List.singleton_append, List.append_nil, List.cons_append,
      List.nil_append]
  have hnul2 : ∀ c ∈ "CONSUME ".toList ++ topic ++ " ".toList ++ to_string p, c ≠ NUL := by
    intro c hc
    simp only [List.mem_append] at hc
    rcases hc with ((hc | hc) | hc) | hc
    · intro e; rw [e] at hc; revert hc; decide
    · exact hnul c hc
    · intro e; rw [e] at hc; revert hc; decide
    · exact to_string_ne_NUL p c hc
  have hreq := requestOf_eq _ hnul2 hfit
  obtain ⟨a1, a2, _⟩ := parse_arguments "CONSUME".toList topic (to_string p) [] p u
    isToken_CONSUME htopic (to_string_isIntToken p) hmin hmax (by intro c hc; simp at hc)
  rw [← hform, ← hreq] at a1 a2
  rw [handleRequest_consume b u _ (by simp) a1 topic p a2]
  have hex : b.topicExists topic = true := by simp [Broker.topicExists, hfind]
  have hcount : p < 0 ∨ p ≥ b.getPartitionCount topic := by
    rcases hrange with h | h
    · exact Or.inl h
    · right
      simp only [Broker.getPartitionCount, hfind]
      rw [toInt32_of_range _ (by omega) (by unfold INT_MAX at hmax; omega)]
      exact h
  simp [hex, hcount]

/-- C6: `CONSUME` with a partition index out of range.  In every state of
the running broker, for every topic with `N` partitions and every `int` `p`
with `p < 0` or `p ≥ N`, the request `CONSUME <topic> <p>` makes the handler
write `ERROR: Invalid partition index`; it calls `topicExists` and, when
`p ≥ 0`, `getPartitionCount`, never `consumeMessage`, and the broker (every
partition, every cursor) is unchanged. -/
theorem consume_invalid_partition (b : Broker) (u : Int) (topic : StdString)
    (parts : List Partition) (p : Int) (hb : b.reachable)
    (hfind : StdMap.find b.topics topic = some parts)
    (hmin : INT_MIN ≤ p) (hmax : p ≤ INT_MAX) (hrange : p < 0 ∨ p ≥ parts.length) :
    handleRequest b u ("CONSUME ".toList ++ topic ++ " ".toList ++ to_string p)
      = ⟨b, .wrote "ERROR: Invalid partition index\n".toList,
          .topicExists topic :: (if p < 0 then [] else [.getPartitionCount topic])⟩ := by
  obtain ⟨htok, hnul, hlen, _⟩ := Broker.reachable_topic b hb topic parts hfind
  have hl := to_string_length p hmin hmax
  have e1 : "CONSUME ".toList.length = 8 := by decide
  have e2 : " ".toList.length = 1 := by decide
  exact consume_invalid_partition_of_token b u topic parts p htok hfind hmin hmax hrange hnul
    (by simp only [List.length_append, e1, e2, hlen, BUFFER_SIZE]; omega)

/-- C6 on `CONSUME topic1 9`, with the three partitions of `topic1`. -/
theorem consume_invalid_partition_witness :
    handleRequest Broker.new 0 ("CONSUME ".toList ++ "topic1".toList ++ " ".toList ++ to_string 9)
      = ⟨Broker.new, .wrote "ERROR: Invalid partition index\n".toList,
          [.topicExists "topic1".toList, .getPartitionCount "topic1".toList]⟩ :=
  (consume_invalid_partition Broker.new 0 "topic1".toList [⟨[]⟩, ⟨[]⟩, ⟨[]⟩] 9
    ⟨[], by decide, rfl⟩ (by decide) (by decide) (by decide) (by decide)).trans (by decide)

/-! ## PRODUCE -/

theorem handleRequest_produce_calls (b : Broker) (u : Int) (incoming : StdString)
    (hne : incoming ≠ [])
    (h1 : firstToken (requestOf incoming) = "PRODUCE".toList)
    (topic : StdString) (msg : Message)
    (hp : parseProduce ((IStringStream.ofString (requestOf incoming)).extractString []).1 u
      = (topic, msg)) :
    (handleRequest b u incoming).calls = [.produceMessage topic msg] := by
  have hc := (IStringStream.extractString_tokens (requestOf incoming)).1
  rcases hx : (IStringStream.ofString (requestOf incoming)).extractString [] with ⟨s1, cmd⟩
  rw [hx] at hc hp
  simp only at hc hp
  subst hc
  unfold handleRequest
  rw [if_neg (take_length_pos incoming hne), hx]
  simp only
  rw [if_pos h1, hp]
  simp only
  rcases b.produceMessage topic msg with ⟨b2, r⟩
  cases r with
  | returned i => simp only; split <;> rfl
  | blocked => rfl
  | undefined => rfl

theorem produced_ne_error (s : StdString) :
    Reply.wrote ("Message produced to partition ".toList ++ s)
      ≠ Reply.wrote "ERROR: Topic not found\n".toList := by
  intro h
  injection h with h
  have e : "Message produced to partition ".toList
      = 'M' :: "essage produced to partition ".toList := by decide
  have e2 : "ERROR: Topic not found\n".toList = 'E' :: "RROR: Topic not found\n".toList := by
    decide
  rw [e, e2, List.cons_append] at h
  injection h with h3 _
  revert h3
  decide

/-- `PRODUCE` fails exactly on unknown topics, for a broker whose cursor for
the topic token is an index into the partitions: the general form of
`produce_fails_iff_unknown`. -/
theorem produce_fails_iff_unknown_of_cursor (b : Broker) (u : Int) (incoming : StdString)
    (hne : incoming ≠ [])
    (h1 : firstToken (requestOf incoming) = "PRODUCE".toList)
    (hcur : b.cursorInRange (secondToken (requestOf incoming)) = true) :
    ∃ (msg : Message) (b2 : Broker) (index : Int),
      b.produceMessage (secondToken (requestOf incoming)) msg = (b2, .returned index)
      ∧ (handleRequest b u incoming).calls
          = [.produceMessage (secondToken (requestOf incoming)) msg]
      ∧ (handleRequest b u incoming).broker = b2
      ∧ (index = -1 ↔ StdMap.find b.topics (secondToken (requestOf incoming)) = none)
      ∧ ((handleRequest b u incoming).reply = .wrote "ERROR: Topic not found\n".toList
          ↔ StdMap.find b.topics (secondToken (requestOf incoming)) = none)
      ∧ (StdMap.find b.topics (secondToken (requestOf incoming)) = none → b2 = b)
      ∧ (StdMap.find b.topics (secondToken (requestOf incoming)) ≠ none →
          index = b.cursor (secondToken (requestOf incoming)) ∧ 0 ≤ index
          ∧ (handleRequest b u incoming).reply
              = .wrote ("Message produced to partition ".toList ++ to_string index
                  ++ "\n".toList)) := by
  have ht := (IStringStream.extractString_tokens (requestOf incoming)).2
  rw [← parseProduce_topic _ u] at ht
  have hp : parseProduce
      ((IStringStream.ofString (requestOf incoming)).extractString []).1 u
      = (secondToken (requestOf incoming),
          (parseProduce
            ((IStringStream.ofString (requestOf incoming)).extractString []).1 u).2) := by
    rw [← ht]
  generalize (parseProduce
    ((IStringStream.ofString (requestOf incoming)).extractString []).1 u).2 = msg at hp
  generalize secondToken (requestOf incoming) = topic at hp hcur
  have hcalls := handleRequest_produce_calls b u incoming hne h1 topic msg hp
  cases hf : StdMap.find b.topics topic with
  | none =>
    have hr := Broker.produceMessage_unknown b topic msg hf
    have hs := handleRequest_produce b u incoming hne h1 topic msg hp b (-1) hr
    rw [if_pos (by decide)] at hs
    refine ⟨msg, b, -1, hr, hcalls, by rw [hs], by simp, by simp [hs], fun _ => rfl, ?_⟩
    intro h
    exact absurd rfl h
  | some parts =>
    simp only [Broker.cursorInRange, hf, Bool.and_eq_true, decide_eq_true_eq] at hcur
    obtain ⟨⟨c0, c1⟩, c2⟩ := hcur
    obtain ⟨part, _, hr⟩ := Broker.produceMessage_known b topic msg parts hf c0 c1 c2
    have hs := handleRequest_produce b u incoming hne h1 topic msg hp _ _ hr
    rw [if_neg (by omega)] at hs
    refine ⟨msg, _, b.cursor topic, hr, hcalls, by rw [hs], ?_, ?_, ?_, ?_⟩
    · constructor
      · intro h; omega
      · intro h; cases h
    · constructor
      · intro h
        rw [hs] at h
        simp only [List.append_assoc] at h
        exact absurd h (produced_ne_error _)
      · intro h; cases h
    · intro h; cases h
    · intro _
      exact ⟨rfl, c0, by rw [hs]⟩

/-- C7: `PRODUCE` fails exactly on unknown topics, and atomically.  In every
state of the running broker, for every read that returns at least one byte
and whose request has `PRODUCE` as first token, whatever follows (id or
content missing or not numeric included): `produceMessage` is called once,
with the second token as topic (empty when missing), and returns; it returns
-1, and the handler writes `ERROR: Topic not found`, if and only if that
token is not a topic; in that case the broker is unchanged (nothing enqueued,
no cursor moved); otherwise the index returned is the topic's cursor and the
handler writes `Message produced to partition <index>`. -/
theorem produce_fails_iff_unknown (b : Broker) (u : Int) (incoming : StdString)
    (hb : b.reachable) (hne : incoming ≠ [])
    (h1 : firstToken (requestOf incoming) = "PRODUCE".toList) :
    ∃ (msg : Message) (b2 : Broker) (index : Int),
      b.produceMessage (secondToken (requestOf incoming)) msg = (b2, .returned index)
      ∧ (handleRequest b u incoming).calls
          = [.produceMessage (secondToken (requestOf incoming)) msg]
      ∧ (handleRequest b u incoming).broker = b2
      ∧ (index = -1 ↔ StdMap.find b.topics (secondToken (requestOf incoming)) = none)
      ∧ ((handleRequest b u incoming).reply = .wrote "ERROR: Topic not found\n".toList
          ↔ StdMap.find b.topics (secondToken (requestOf incoming)) = none)
      ∧ (StdMap.find b.topics (secondToken (requestOf incoming)) = none → b2 = b)
      ∧ (StdMap.find b.topics (secondToken (requestOf incoming)) ≠ none →
          index = b.cursor (secondToken (requestOf incoming)) ∧ 0 ≤ index
          ∧ (handleRequest b u incoming).reply
              = .wrote ("Message produced to partition ".toList ++ to_string index
                  ++ "\n".toList)) :=
  produce_fails_iff_unknown_of_cursor b u incoming hne h1
    ((Broker.reachable_spec b hb).2 _)

/-- C7 on the fresh broker, for a `PRODUCE` without id and content on an
unknown topic. -/
theorem produce_fails_iff_unknown_witness :
    ∃ (msg : Message) (b2 : Broker) (index : Int),
      Broker.new.produceMessage (secondToken (requestOf "PRODUCE nosuch".toList)) msg
        = (b2, .returned index)
      ∧ (handleRequest Broker.new 7 "PRODUCE nosuch".toList).calls
          = [.produceMessage (secondToken (requestOf "PRODUCE nosuch".toList)) msg]
      ∧ (handleRequest Broker.new 7 "PRODUCE nosuch".toList).broker = b2
      ∧ (index = -1
          ↔ StdMap.find Broker.new.topics (secondToken (requestOf "PRODUCE nosuch".toList))
            = none)
      ∧ ((handleRequest Broker.new 7 "PRODUCE nosuch".toList).reply
            = .wrote "ERROR: Topic not found\n".toList
          ↔ StdMap.find Broker.new.topics (secondToken (requestOf "PRODUCE nosuch".toList))
            = none)
      ∧ (StdMap.find Broker.new.topics (secondToken (requestOf "PRODUCE nosuch".toList))
            = none → b2 = Broker.new)
      ∧ (StdMap.find Broker.new.topics (secondToken (requestOf "PRODUCE nosuch".toList))
            ≠ none →
          index = Broker.new.cursor (secondToken (requestOf "PRODUCE nosuch".toList))
          ∧ 0 ≤ index
          ∧ (handleRequest Broker.new 7 "PRODUCE nosuch".toList).reply
              = .wrote ("Message produced to partition ".toList ++ to_string index
                  ++ "\n".toList)) :=
  produce_fails_iff_unknown Broker.new 7 "PRODUCE nosuch".toList ⟨[], by decide, rfl⟩
    (by decide) (by decide)

theorem produce_request_form (topic idTok rest : StdString) :
    "PRODUCE ".toList ++ topic ++ " ".toList ++ idTok ++ rest
      = "PRODUCE".toList ++ ' ' :: (topic ++ ' ' :: (idTok ++ rest)) := by
  have e1 : "PRODUCE ".toList = "PRODUCE".toList ++ [' '] := by decide
  have e2 : " ".toList = [' '] := by decide
  rw [e1, e2]
  simp only [List.append_assoc, List.singleton_append, List.append_nil, List.cons_append,
    List.nil_append]

/-- C9: the content of a `PRODUCE`.  For every request
`PRODUCE <topic> <id><rest>` followed by nothing or by a newline and more
(no NUL, fitting the buffer), where the topic is a whitespace-free token, the
id is an `int` written in decimal (sign allowed) and `<rest>`, free of
newlines, does not go on with a digit: the handler calls `produceMessage`
with that topic and a message whose id is the value of `<id>` and whose
content is `<rest>` without one leading space, if it has one, and otherwise
as it is; when the topic exists, with a cursor that is an index into its
partitions, this message is appended to the queue of the partition at the
cursor. -/
theorem produce_content (b : Broker) (u : Int) (topic idTok rest eol : StdString) (id : Int)
    (htopic : isToken topic) (hid : isIntToken idTok id)
    (hmin : INT_MIN ≤ id) (hmax : id ≤ INT_MAX)
    (hrest : ∀ c ∈ rest, c ≠ '\n') (hnd : notStartingWith isdigit (rest ++ eol))
    (heol : ∀ c, eol.head? = some c → c = '\n')
    (hnul : ∀ c ∈ "PRODUCE ".toList ++ topic ++ " ".toList ++ idTok ++ (rest ++ eol), c ≠ NUL)
    (hfit : ("PRODUCE ".toList ++ topic ++ " ".toList ++ idTok ++ (rest ++ eol)).length
      ≤ BUFFER_SIZE - 1) :
    (handleRequest b u
        ("PRODUCE ".toList ++ topic ++ " ".toList ++ idTok ++ (rest ++ eol))).calls
      = [.produceMessage topic ⟨id, dropOneSpace rest⟩]
    ∧ ∀ parts, StdMap.find b.topics topic = some parts → b.cursorInRange topic = true →
        ∃ part, parts[(b.cursor topic).toNat]? = some part
          ∧ (handleRequest b u
              ("PRODUCE ".toList ++ topic ++ " ".toList ++ idTok ++ (rest ++ eol))).broker.topics
            = StdMap.set b.topics topic
                (parts.set (b.cursor topic).toNat
                  ⟨part.messages ++ [⟨id, dropOneSpace rest⟩]⟩) := by
  have hreq := requestOf_eq _ hnul hfit
  obtain ⟨a1, _, a3⟩ := parse_arguments "PRODUCE".toList topic idTok (rest ++ eol) id u
    isToken_PRODUCE htopic hid hmin hmax hnd
  have hline : (rest ++ eol).takeWhile (fun x => x != '\n') = rest :=
    (takeWhile_append_stop (fun x => x != '\n') rest eol
      (fun c hc => by simpa using hrest c hc)
      (fun c hc => by simp [heol c hc])).1
  rw [hline, ← produce_request_form, ← hreq] at a3
  rw [← produce_request_form, ← hreq] at a1
  have hne : "PRODUCE ".toList ++ topic ++ " ".toList ++ idTok ++ (rest ++ eol) ≠ [] := by
    simp
  refine ⟨handleRequest_produce_calls b u _ hne a1 _ _ a3, ?_⟩
  intro parts hf hcur
  simp only [Broker.cursorInRange, hf, Bool.and_eq_true, decide_eq_true_eq] at hcur
  obtain ⟨⟨c0, c1⟩, c2⟩ := hcur
  obtain ⟨part, hpart, hr⟩ :=
    Broker.produceMessage_known b topic ⟨id, dropOneSpace rest⟩ parts hf c0 c1 c2
  have hs := handleRequest_produce b u _ hne a1 _ _ a3 _ _ hr
  rw [if_neg (by omega)] at hs
  exact ⟨part, hpart, by rw [hs]; rfl⟩

/-- C9 on `PRODUCE topic1 12  two  spaces ` with a newline after it: one of
the two leading spaces is removed, the others are kept. -/
theorem produce_content_witness :
    (handleRequest Broker.new 0
        ("PRODUCE ".toList ++ "topic1".toList ++ " ".toList ++ "12".toList
          ++ ("  two  spaces ".toList ++ "\n".toList))).calls
      = [.produceMessage "topic1".toList ⟨12, " two  spaces ".toList⟩] :=
  (produce_content Broker.new 0 "topic1".toList "12".toList "  two  spaces ".toList
    "\n".toList 12 ⟨by decide, by decide⟩
    ⟨"12".toList, by decide, by decide, Or.inl ⟨rfl, by decide⟩⟩
    (by decide) (by decide) (by decide) (by intro c hc; cases hc; decide)
    (by intro c hc; cases hc; rfl) (by decide) (by decide)).1.trans (by decide)

/-! ## Produce/consume round trip -/

theorem consume_request_form (topic idTok : StdString) :
    "CONSUME ".toList ++ topic ++ " ".toList ++ idTok
      = "CONSUME".toList ++ ' ' :: (topic ++ ' ' :: (idTok ++ [])) := by
  have e1 : "CONSUME ".toList = "CONSUME".toList ++ [' '] := by decide
  have e2 : " ".toList = [' '] := by decide
  rw [e1, e2]
  simp only [List.append_assoc, List.singleton_append, List.append_nil, List.cons_append,
    List.nil_append]

/-- The step of a well-formed `PRODUCE` on a topic whose cursor is an index
into its partitions. -/
theorem handleRequest_produce_step (b : Broker) (u : Int) (topic content : StdString)
    (id : Int) (parts : List Partition) (part : Partition)
    (htopic : isToken topic) (hfind : StdMap.find b.topics topic = some parts)
    (hcur : b.cursorInRange topic = true)
    (hpart : parts[(b.cursor topic).toNat]? = some part)
    (hmin : INT_MIN ≤ id) (hmax : id ≤ INT_MAX)
    (hcontent : ∀ c ∈ content, c ≠ '\n')
    (hnul : ∀ c ∈ "PRODUCE ".toList ++ topic ++ " ".toList ++ to_string id
      ++ (" ".toList ++ content), c ≠ NUL)
    (hfit : ("PRODUCE ".toList ++ topic ++ " ".toList ++ to_string id
      ++ (" ".toList ++ content)).length ≤ BUFFER_SIZE - 1) :
    handleRequest b u
        ("PRODUCE ".toList ++ topic ++ " ".toList ++ to_string id ++ (" ".toList ++ content))
      = ⟨⟨StdMap.set b.topics topic
            (parts.set (b.cursor topic).toNat (part.addMessage ⟨id, content⟩)),
          StdMap.set (StdMap.index b.roundRobin topic 0).1 topic
            ((b.cursor topic + 1) % parts.length)⟩,
         .wrote ("Message produced to partition ".toList ++ to_string (b.cursor topic)
            ++ "\n".toList),
         [.produceMessage topic ⟨id, content⟩]⟩ := by
  have hsp : " ".toList = [' '] := by decide
  have hdrop : dropOneSpace (" ".toList ++ content) = content := by
    rw [hsp]; simp [dropOneSpace]
  simp only [Broker.cursorInRange, hfind, Bool.and_eq_true, decide_eq_true_eq] at hcur
  obtain ⟨⟨c0, c1⟩, c2⟩ := hcur
  obtain ⟨part2, hpart2, hr⟩ :=
    Broker.produceMessage_known b topic ⟨id, content⟩ parts hfind c0 c1 c2
  rw [hpart] at hpart2
  injection hpart2 with hpart2
  subst hpart2
  have hreq := requestOf_eq _ hnul hfit
  obtain ⟨a1, _, a3⟩ := parse_arguments "PRODUCE".toList topic (to_string id)
    (" ".toList ++ content) id u isToken_PRODUCE htopic (to_string_isIntToken id) hmin hmax
    (by intro c hc; rw [hsp] at hc; simp at hc; rw [← hc]; decide)
  have hline : (" ".toList ++ content).takeWhile (fun x => x != '\n')
      = " ".toList ++ content := by
    apply List.takeWhile_eq_self_iff.mpr
    intro c hc
    rw [hsp] at hc
    simp only [List.singleton_append, List.mem_cons] at hc
    rcases hc with rfl | hc
    · decide
    · simpa using hcontent c hc
  rw [hline, hdrop, ← produce_request_form, ← hreq] at a3
  rw [← produce_request_form, ← hreq] at a1
  have hs := handleRequest_produce b u _ (by simp) a1 _ _ a3 _ _ hr
  rw [if_neg (by omega)] at hs
  exact hs

/-- The reply to `CONSUME <topic> <p>` when partition `p` has `msg` at the
front of its queue. -/
theorem handleRequest_consume_front (b : Broker) (u : Int) (topic : StdString) (p : Int)
    (count : Nat) (msg : Message) (htopic : isToken topic) (hnul : ∀ c ∈ topic, c ≠ NUL)
    (h0 : 0 ≤ p) (hcount : (count : Int) ≤ INT_MAX)
    (hfront : b.frontIs topic count p.toNat msg)
    (hfit : ("CONSUME ".toList ++ topic ++ " ".toList ++ to_string p).length
      ≤ BUFFER_SIZE - 1) :
    (handleRequest b u ("CONSUME ".toList ++ topic ++ " ".toList ++ to_string p)).reply
      = .wrote ("Consumed: ".toList ++ to_string msg.id ++ " ".toList ++ msg.content
          ++ "\n".toList) := by
  obtain ⟨parts, rest, hf, hlen, hget⟩ := hfront
  have hlt : p.toNat < parts.length := (List.getElem?_eq_some_iff.mp hget).1
  have hmaxc : p ≤ INT_MAX := by omega
  have hminc : INT_MIN ≤ p := by unfold INT_MIN; omega
  have hnul2 : ∀ c ∈ "CONSUME ".toList ++ topic ++ " ".toList ++ to_string p, c ≠ NUL := by
    intro c hc
    simp only [List.mem_append] at hc
    rcases hc with ((hc | hc) | hc) | hc
    · intro e; rw [e] at hc; revert hc; decide
    · exact hnul c hc
    · intro e; rw [e] at hc; revert hc; decide
    · exact to_string_ne_NUL _ c hc
  have hreq2 := requestOf_eq _ hnul2 hfit
  obtain ⟨d1, d2, _⟩ := parse_arguments "CONSUME".toList topic (to_string p) [] p u
    isToken_CONSUME htopic (to_string_isIntToken _) hminc hmaxc
    (by intro c hc; simp at hc)
  rw [← consume_request_form, ← hreq2] at d1 d2
  rw [handleRequest_consume _ u _ (by simp) d1 topic p d2]
  have hex : b.topicExists topic = true := by simp [Broker.topicExists, hf]
  have hcnt : b.getPartitionCount topic = parts.length := by
    simp only [Broker.getPartitionCount, hf]
    exact toInt32_of_range _ (by omega) (by unfold INT_MAX at hcount; omega)
  have hcons : b.consumeMessage topic p
      = (⟨StdMap.set b.topics topic (parts.set p.toNat ⟨rest⟩), b.roundRobin⟩,
          .returned msg) := by
    unfold Broker.consumeMessage
    rw [StdMap.index_of_find _ topic [] parts hf]
    have hin : 0 ≤ p ∧ p < (parts.length : Int) := ⟨h0, by omega⟩
    simp only [hin, and_self, if_true, hget, Partition.getMessage]
  rw [hex]
  simp only [Bool.not_true, Bool.false_eq_true, if_false]
  rw [hcnt, if_neg (by omega), hcons]

/-- C3 as stated fails when a consumer is already waiting on the partition.
On the started server a `consumeMessage("topic1", 0)` finds the queue empty
and waits; partition 0, at the cursor of `topic1`, is empty.  Then
`PRODUCE topic1 1 hello world` is answered `Message produced to partition 0`,
the waiting consumer wakes and takes the message, and the following
`CONSUME topic1 0` is not answered `Consumed: 1 hello world`: it blocks. -/
theorem produce_consume_round_trip_counterexample :
    (Server.new.run [.call (.consumeMessage "topic1".toList 0)]).1
      = ⟨Broker.new, [⟨"topic1".toList, 0⟩]⟩
    ∧ ((Server.mk Broker.new [⟨"topic1".toList, 0⟩]).serve 0
        "PRODUCE topic1 1 hello world".toList).2
      = .wrote "Message produced to partition 0\n".toList
    ∧ (((Server.mk Broker.new [⟨"topic1".toList, 0⟩]).serve 0
        "PRODUCE topic1 1 hello world".toList).1.step (.wake ⟨"topic1".toList, 0⟩)).2
      = .message ⟨1, "hello world".toList⟩
    ∧ ((((Server.mk Broker.new [⟨"topic1".toList, 0⟩]).serve 0
        "PRODUCE topic1 1 hello world".toList).1.step (.wake ⟨"topic1".toList, 0⟩)).1.serve 0
        "CONSUME topic1 0".toList).2
      = .blocked := by
  decide

/-- C3, amended: produce/consume round trip through the protocol.  In every
state of the running server, for every topic whose partition `p` at the
cursor is empty and has no consumer waiting on it, every `int` `id` and every
content without newline or NUL, the request `PRODUCE <topic> <id> <content>`
(id in decimal, fitting the buffer) is answered
`Message produced to partition <p>`, and the next `CONSUME <topic> <p>`,
whatever calls other than a `consumeMessage` on that partition and whatever
wake-ups of waiting consumers come in between (none of them with undefined
behaviour), is answered
`Consumed: <id> <content>`, id and content unchanged. -/
theorem produce_consume_round_trip (s : Server) (u1 u2 : Int) (topic content : StdString)
    (id : Int) (parts : List Partition) (part : Partition) (mid : List Event)
    (hs : s.reachable)
    (hfind : StdMap.find s.broker.topics topic = some parts)
    (hpart : parts[(s.broker.cursor topic).toNat]? = some part) (hempty : part.messages = [])
    (hidle : ∀ w ∈ s.waiting, ¬ (w.topic = topic ∧ w.partition = s.broker.cursor topic))
    (hmin : INT_MIN ≤ id) (hmax : id ≤ INT_MAX)
    (hcontent : ∀ c ∈ content, c ≠ '\n' ∧ c ≠ NUL)
    (hfit : ("PRODUCE ".toList ++ topic ++ " ".toList ++ to_string id
      ++ (" ".toList ++ content)).length ≤ BUFFER_SIZE - 1)
    (hmid : ∀ e ∈ mid, e ≠ .call (.consumeMessage topic (s.broker.cursor topic)))
    (_hdef : Ret.undefined ∉ ((s.serve u1
        ("PRODUCE ".toList ++ topic ++ " ".toList ++ to_string id
          ++ (" ".toList ++ content))).1.run mid).2) :
    (s.serve u1
        ("PRODUCE ".toList ++ topic ++ " ".toList ++ to_string id
          ++ (" ".toList ++ content))).2
      = .wrote ("Message produced to partition ".toList ++ to_string (s.broker.cursor topic)
          ++ "\n".toList)
    ∧ (((s.serve u1
          ("PRODUCE ".toList ++ topic ++ " ".toList ++ to_string id
            ++ (" ".toList ++ content))).1.run mid).1.serve
        u2 ("CONSUME ".toList ++ topic ++ " ".toList
          ++ to_string (s.broker.cursor topic))).2
      = .wrote ("Consumed: ".toList ++ to_string id ++ " ".toList ++ content
          ++ "\n".toList) := by
  obtain ⟨htok, hnulT, hlen, hcur⟩ := Server.running_topic s hs topic parts hfind
  have hcur2 := hcur
  simp only [Broker.cursorInRange, hfind, Bool.and_eq_true, decide_eq_true_eq] at hcur2
  obtain ⟨⟨c0, c1⟩, c2⟩ := hcur2
  have hl := to_string_length (s.broker.cursor topic) (by unfold INT_MIN; omega) (by omega)
  have e1 : "CONSUME ".toList.length = 8 := by decide
  have e2 : " ".toList.length = 1 := by decide
  have hnul : ∀ c ∈ "PRODUCE ".toList ++ topic ++ " ".toList ++ to_string id
      ++ (" ".toList ++ content), c ≠ NUL := by
    intro c hc
    simp only [List.mem_append] at hc
    rcases hc with (((hc | hc) | hc) | hc) | (hc | hc)
    · intro e; rw [e] at hc; revert hc; decide
    · exact hnulT c hc
    · intro e; rw [e] at hc; revert hc; decide
    · exact to_string_ne_NUL id c hc
    · intro e; rw [e] at hc; revert hc; decide
    · exact (hcontent c hc).2
  have hstep := handleRequest_produce_step s.broker u1 topic content id parts part htok hfind
    hcur hpart hmin hmax (fun c hc => (hcontent c hc).1) hnul hfit
  have hserve : s.serve u1
      ("PRODUCE ".toList ++ topic ++ " ".toList ++ to_string id ++ (" ".toList ++ content))
      = (⟨⟨StdMap.set s.broker.topics topic
              (parts.set (s.broker.cursor topic).toNat (part.addMessage ⟨id, content⟩)),
            StdMap.set (StdMap.index s.broker.roundRobin topic 0).1 topic
              ((s.broker.cursor topic + 1) % parts.length)⟩, s.waiting⟩,
          .wrote ("Message produced to partition ".toList
            ++ to_string (s.broker.cursor topic) ++ "\n".toList)) := by
    simp only [Server.serve, hstep, reduceCtorEq, if_false]
  rw [hserve]
  refine ⟨rfl, ?_⟩
  simp only
  have hcast : (((s.broker.cursor topic).toNat : Nat) : Int) = s.broker.cursor topic :=
    Int.toNat_of_nonneg c0
  have hlt : (s.broker.cursor topic).toNat < parts.length := by omega
  have hfront0 : Broker.frontIs
      ⟨StdMap.set s.broker.topics topic
          (parts.set (s.broker.cursor topic).toNat (part.addMessage ⟨id, content⟩)),
        StdMap.set (StdMap.index s.broker.roundRobin topic 0).1 topic
          ((s.broker.cursor topic + 1) % parts.length)⟩
      topic parts.length (s.broker.cursor topic).toNat ⟨id, content⟩ :=
    ⟨_, [], by rw [StdMap.find_set, if_pos rfl], by simp,
      by simp [hlt, Partition.addMessage, hempty]⟩
  have hfront := Server.run_frontIs topic ⟨id, content⟩ parts.length
    (s.broker.cursor topic).toNat mid
    ⟨⟨StdMap.set s.broker.topics topic
          (parts.set (s.broker.cursor topic).toNat (part.addMessage ⟨id, content⟩)),
        StdMap.set (StdMap.index s.broker.roundRobin topic 0).1 topic
          ((s.broker.cursor topic + 1) % parts.length)⟩, s.waiting⟩
    (by rw [hcast]; exact hmid) hfront0 (by rw [hcast]; exact hidle)
  exact handleRequest_consume_front _ u2 topic (s.broker.cursor topic) parts.length
    ⟨id, content⟩ htok hnulT c0 c2 hfront
    (by simp only [List.length_append, e1, e2, hlen, BUFFER_SIZE]; omega)

/-- C3, amended, on the scenario of the specification: on the started
server `PRODUCE topic1 1 hello world` goes to partition 0; the second request
`PRODUCE topic1 2 x`, whose call is the event in between, goes to partition 1;
`CONSUME topic1 0` then gives `Consumed: 1 hello world`. -/
theorem produce_consume_round_trip_witness :
    Server.new.serve 0
        ("PRODUCE ".toList ++ "topic1".toList ++ " ".toList ++ to_string 1
          ++ (" ".toList ++ "hello world".toList))
      = Server.new.serve 0 "PRODUCE topic1 1 hello world".toList
    ∧ (Server.new.serve 0 "PRODUCE topic1 1 hello world".toList).1.serve 0
        "PRODUCE topic1 2 x".toList
      = (((Server.new.serve 0 "PRODUCE topic1 1 hello world".toList).1.run
            [.call (.produceMessage "topic1".toList ⟨2, "x".toList⟩)]).1,
          .wrote "Message produced to partition 1\n".toList)
    ∧ (Server.new.serve 0
        ("PRODUCE ".toList ++ "topic1".toList ++ " ".toList ++ to_string 1
          ++ (" ".toList ++ "hello world".toList))).2
      = .wrote "Message produced to partition 0\n".toList
    ∧ (((Server.new.serve 0
          ("PRODUCE ".toList ++ "topic1".toList ++ " ".toList ++ to_string 1
            ++ (" ".toList ++ "hello world".toList))).1.run
          [.call (.produceMessage "topic1".toList ⟨2, "x".toList⟩)]).1.serve
        0 ("CONSUME ".toList ++ "topic1".toList ++ " ".toList
          ++ to_string (Server.new.broker.cursor "topic1".toList))).2
      = .wrote "Consumed: 1 hello world\n".toList :=
  ⟨by decide, by decide,
    (produce_consume_round_trip Server.new 0 0 "topic1".toList "hello world".toList 1
      [⟨[]⟩, ⟨[]⟩, ⟨[]⟩] ⟨[]⟩ [.call (.produceMessage "topic1".toList ⟨2, "x".toList⟩)]
      ⟨[], by decide, rfl⟩ (by decide) (by decide) rfl (by decide) (by decide) (by decide)
      (by decide) (by decide) (by decide) (by decide)).imp
      (fun e => e.trans (by decide)) (fun e => e.trans (by decide))⟩

